import Mathlib

/-!
# M24LC256 EEPROM driver: chunking of reads and writes

A shallow embedding of `M24LC256.cpp` / `M24LC256.h`.

* `uint16_t` / `uint8_t` values are natural numbers; every value computed into
  a `uint16_t` (`-=`, `+=`, `--`, the results of `min`) is reduced `% 65536`,
  every cast to `uint8_t` is reduced `% 256`.
* Caller memory is a function `Nat → Nat` (byte at an index counted from the
  `buf` pointer); a pointer into it is the index.
* The Wire library is not part of the repository.  The write path only pushes
  bytes into it and ignores every return value, so a write is described by the
  list of transmissions it performs.  The read path consumes what
  `Wire.requestFrom` makes available; that is a parameter (`Transport`).
* `delay(5)` / `delay(1)` are waits without effect on the values computed and
  are not represented.
* The two `while` loops are modelled with fuel; `none` means the fuel ran out
  before the loop condition became false.
-/

/-- The I2C base address `B1010000` of the chip. -/
def I2C_M24LC256 : Nat := 0x50

/-- The driver object: its only member is `i2c_address` (a `uint8_t`). -/
structure M24LC256 where
  i2c_address : Nat
deriving DecidableEq, Repr

/-- Constructor `M24LC256::M24LC256(uint8_t _address)`:
`i2c_address = _address | I2C_M24LC256`, stored in a `uint8_t`. -/
def M24LC256.ctor (_address : Nat) : M24LC256 :=
  { i2c_address := (_address ||| I2C_M24LC256) % 256 }

/-- The constant `page_size`, selected by the preprocessor from the two Wire
buffer lengths. -/
def page_size (BUFFER_LENGTH TWI_BUFFER_LENGTH : Nat) : Nat :=
  if BUFFER_LENGTH < 34 ∨ TWI_BUFFER_LENGTH < 34 then 0x10
  else if BUFFER_LENGTH < 66 ∨ TWI_BUFFER_LENGTH < 66 then 0x20
  else 0x40

/-- One transmission of `WriteChunk`: `beginTransmission(device)`, the two
address bytes, `send(data, bytes_written)`, `endTransmission()`. -/
structure WriteTxn where
  device : Nat
  hi : Nat
  lo : Nat
  payload : List Nat
deriving DecidableEq, Repr

/-- The chip offset that the two address bytes of a transmission encode. -/
def WriteTxn.addr (t : WriteTxn) : Nat := 256 * t.hi + t.lo

/-- The bytes `data[0]`, ..., `data[n-1]` of caller memory. -/
def bytesAt (mem : Nat → Nat) (data n : Nat) : List Nat :=
  (List.range n).map (fun i => mem (data + i))

/-- Method `M24LC256::WriteChunk(location, length, data)`; `ps` is the constant
`page_size`.  Returns `bytes_written` and the transmission performed. -/
def M24LC256.WriteChunk (self : M24LC256) (ps : Nat) (mem : Nat → Nat)
    (location length data : Nat) : Nat × WriteTxn :=
  let bytes_written := (min length ps) % 65536
  (bytes_written,
    { device := self.i2c_address
      hi := (location >>> 8) % 256
      lo := (location &&& 0xff) % 256
      payload := bytesAt mem data bytes_written })

/-- The loop `while ( remaining ) ...` of `M24LC256::write`. -/
def M24LC256.writeLoop (self : M24LC256) (ps : Nat) (mem : Nat → Nat) :
    Nat → Nat → Nat → Nat → Option (List WriteTxn)
  | 0, remaining, _, _ => if remaining = 0 then some [] else none
  | fuel + 1, remaining, next_in, next_out =>
    if remaining = 0 then some []
    else
      let w := self.WriteChunk ps mem next_out remaining next_in
      (self.writeLoop ps mem fuel ((remaining + 65536 - w.1) % 65536) (next_in + w.1)
        ((next_out + w.1) % 65536)).map (fun rest => w.2 :: rest)

/-- Method `M24LC256::write(location, buf, len)`: the transmissions it performs,
in order.  `mem` is the memory `buf` points to. -/
def M24LC256.write (self : M24LC256) (ps : Nat) (fuel : Nat) (location : Nat)
    (mem : Nat → Nat) (len : Nat) : Option (List WriteTxn) :=
  let remaining := len
  let next_in := 0
  let next_out := location
  if location &&& (ps - 1) ≠ 0 then
    let chunk_length := (min remaining (ps - (location &&& (ps - 1)))) % 65536
    let w := self.WriteChunk ps mem next_out chunk_length next_in
    (self.writeLoop ps mem fuel ((remaining + 65536 - w.1) % 65536) (next_in + w.1)
      ((next_out + w.1) % 65536)).map (fun rest => w.2 :: rest)
  else
    self.writeLoop ps mem fuel remaining next_in next_out

/-- What `ReadChunk` hands to the Wire library: the device, the two address
bytes of the preceding transmission and the quantity given to `requestFrom`. -/
structure ReadReq where
  device : Nat
  hi : Nat
  lo : Nat
  quantity : Nat
deriving DecidableEq, Repr

/-- The chip offset that the two address bytes of a read request encode. -/
def ReadReq.addr (r : ReadReq) : Nat := 256 * r.hi + r.lo

/-- The bus transport seen from `ReadChunk`: from its state and a request it
yields the bytes that `Wire.available()` / `Wire.receive()` will hand out, and
its next state.  Any number of bytes may be made available. -/
abbrev Transport (σ : Type) := σ → ReadReq → List Nat × σ

/-- One call of `ReadChunk` as seen on the bus: the request, the bytes made
available, and the number of bytes taken (`bytes_received`). -/
structure ReadTxn where
  req : ReadReq
  available : List Nat
  received : Nat
deriving DecidableEq, Repr

/-- The loop `while (Wire.available() && remaining--) { *next++ = Wire.receive();
++bytes_received; }`.  The first argument is the receive buffer of the Wire
library.  Returns the memory and `bytes_received`. -/
def drain : List Nat → Nat → (Nat → Nat) → Nat → Nat → (Nat → Nat) × Nat
  | [], _, mem, _, bytes_received => (mem, bytes_received)
  | b :: rest, remaining, mem, next, bytes_received =>
    if remaining = 0 then (mem, bytes_received)
    else drain rest ((remaining + 65536 - 1) % 65536) (Function.update mem next b) (next + 1)
      ((bytes_received + 1) % 65536)

/-- Result of `ReadChunk`: `bytes_received`, the memory, the transport state
and the bus record of the call. -/
structure ChunkRead (σ : Type) where
  bytes_received : Nat
  mem : Nat → Nat
  state : σ
  txn : ReadTxn

/-- Method `M24LC256::ReadChunk(location, length, data)`. -/
def M24LC256.ReadChunk {σ : Type} (self : M24LC256) (T : Transport σ) (s : σ)
    (mem : Nat → Nat) (location length data : Nat) : ChunkRead σ :=
  let bytes_requested := (min length 16) % 65536
  let req : ReadReq :=
    { device := self.i2c_address
      hi := (location >>> 8) % 256
      lo := (location &&& 0xff) % 256
      quantity := bytes_requested }
  let a := T s req
  let d := drain a.1 bytes_requested mem data 0
  { bytes_received := d.2
    mem := d.1
    state := a.2
    txn := { req := req, available := a.1, received := d.2 } }

/-- Result of `read`: the returned `bytes_received`, the memory `buf` points to,
the transport state, and the chunk reads issued, in order. -/
structure ReadResult (σ : Type) where
  bytes_received : Nat
  mem : Nat → Nat
  state : σ
  log : List ReadTxn

/-- Prepends a chunk read to the log of a result. -/
def ReadResult.push {σ : Type} (t : ReadTxn) (r : ReadResult σ) : ReadResult σ :=
  { r with log := t :: r.log }

/-- The loop `while ( remaining ) ... if ( ! chunk_received ) break;` of
`M24LC256::read`. -/
def M24LC256.readLoop {σ : Type} (self : M24LC256) (T : Transport σ) :
    Nat → σ → (Nat → Nat) → Nat → Nat → Nat → Nat → Option (ReadResult σ)
  | 0, s, mem, remaining, _, _, bytes_received =>
    if remaining = 0 then
      some { bytes_received := bytes_received, mem := mem, state := s, log := [] }
    else none
  | fuel + 1, s, mem, remaining, next_memory, next_chip, bytes_received =>
    if remaining = 0 then
      some { bytes_received := bytes_received, mem := mem, state := s, log := [] }
    else
      let c := self.ReadChunk T s mem next_chip remaining next_memory
      let chunk_received := c.bytes_received
      if chunk_received = 0 then
        some { bytes_received := (bytes_received + chunk_received) % 65536, mem := c.mem,
               state := c.state, log := [c.txn] }
      else
        (self.readLoop T fuel c.state c.mem ((remaining + 65536 - chunk_received) % 65536)
          (next_memory + chunk_received) ((next_chip + chunk_received) % 65536)
          ((bytes_received + chunk_received) % 65536)).map (ReadResult.push c.txn)

/-- Method `M24LC256::read(location, buf, len)`.  `mem` is the memory `buf`
points to. -/
def M24LC256.read {σ : Type} (self : M24LC256) (T : Transport σ) (fuel : Nat) (s : σ)
    (location : Nat) (mem : Nat → Nat) (len : Nat) : Option (ReadResult σ) :=
  let bytes_received := 0
  let remaining := len
  let next_memory := 0
  let next_chip := location
  if location &&& 0xf ≠ 0 then
    let chunk_length := (min remaining (0x10 - (location &&& 0xf))) % 65536
    let c := self.ReadChunk T s mem next_chip chunk_length next_memory
    let chunk_received := c.bytes_received
    (self.readLoop T fuel c.state c.mem ((remaining + 65536 - chunk_received) % 65536)
      (next_memory + chunk_received) ((next_chip + chunk_received) % 65536)
      ((bytes_received + chunk_received) % 65536)).map (ReadResult.push c.txn)
  else
    self.readLoop T fuel s mem remaining next_memory next_chip bytes_received


/-! ## The simulated chip -/

/-- Modelled from the spec: a page write of the simulated chip.  The bytes of
one transmission are stored from the address counter `a` on; after each byte
the counter advances inside its 64-byte page and wraps to the start of the
page at the page end ("wraps silently within the page"). -/
def pageWrite : (Nat → Nat) → Nat → List Nat → (Nat → Nat)
  | store, _, [] => store
  | store, a, b :: bs => pageWrite (Function.update store a b) (a / 64 * 64 + (a + 1) % 64) bs

/-- Modelled from the spec: the simulated chip (32768-byte store, 64-byte
pages) receiving the transmissions of a write, in order.  The chip decodes 15
address bits. -/
def chipWrite (store : Nat → Nat) (txns : List WriteTxn) : Nat → Nat :=
  txns.foldl (fun st t => pageWrite st (t.addr % 0x8000) t.payload) store

/-- Modelled from the spec: a sequential read of the simulated chip, `n` bytes
from address `a` on, the address counter wrapping at the top of the store. -/
def chipRead (store : Nat → Nat) (a n : Nat) : List Nat :=
  (List.range n).map (fun i => store ((a + i) % 0x8000))

/-- Modelled from the spec: the simulated transport that always delivers every
requested byte, backed by the simulated chip.  Its state is the store. -/
def chipTransport : Transport (Nat → Nat) :=
  fun store req => (chipRead store (req.addr % 0x8000) req.quantity, store)

/-! ## Arithmetic of the address bytes and of the alignment mask -/

/-- For the three values `page_size` can take, `x & (page_size-1)` is `x % page_size`. -/
theorem and_mask_eq_mod (ps : Nat) (hps : ps = 16 ∨ ps = 32 ∨ ps = 64) (x : Nat) :
    x &&& (ps - 1) = x % ps := by
  rcases hps with rfl | rfl | rfl
  · exact Nat.and_pow_two_sub_one_eq_mod x 4
  · exact Nat.and_pow_two_sub_one_eq_mod x 5
  · exact Nat.and_pow_two_sub_one_eq_mod x 6

/-- The mask `x & 0xf` is `x % 16`. -/
theorem and_0xf_eq_mod (x : Nat) : x &&& 0xf = x % 16 :=
  Nat.and_pow_two_sub_one_eq_mod x 4

/-- The mask `x & 0xff` is `x % 256`. -/
theorem and_0xff_eq_mod (x : Nat) : x &&& 0xff = x % 256 :=
  Nat.and_pow_two_sub_one_eq_mod x 8

/-- The two address bytes of a 16-bit location encode it, high byte first. -/
theorem addr_bytes (location : Nat) (h : location < 65536) :
    256 * ((location >>> 8) % 256) + (location &&& 0xff) % 256 = location := by
  rw [and_0xff_eq_mod, Nat.shiftRight_eq_div_pow]
  omega

/-! ## `WriteChunk` -/

theorem WriteChunk_fst (self : M24LC256) (ps : Nat) (mem : Nat → Nat)
    (location length data : Nat) (h : length < 65536) :
    (self.WriteChunk ps mem location length data).1 = min length ps := by
  simp only [M24LC256.WriteChunk]
  omega

theorem WriteChunk_addr (self : M24LC256) (ps : Nat) (mem : Nat → Nat)
    (location length data : Nat) (h : location < 65536) :
    (self.WriteChunk ps mem location length data).2.addr = location := by
  simp only [M24LC256.WriteChunk, WriteTxn.addr]
  exact addr_bytes location h

theorem WriteChunk_payload (self : M24LC256) (ps : Nat) (mem : Nat → Nat)
    (location length data : Nat) (h : length < 65536) :
    (self.WriteChunk ps mem location length data).2.payload
      = bytesAt mem data (min length ps) := by
  have h1 : min length ps % 65536 = min length ps := by omega
  simp only [M24LC256.WriteChunk, h1]

theorem bytesAt_length (mem : Nat → Nat) (data n : Nat) : (bytesAt mem data n).length = n := by
  simp [bytesAt]

/-- Splitting a run of caller memory in two. -/
theorem bytesAt_add (mem : Nat → Nat) (data a b : Nat) :
    bytesAt mem data (a + b) = bytesAt mem data a ++ bytesAt mem (data + a) b := by
  simp only [bytesAt, List.range_add, List.map_append, List.map_map]
  congr 1
  apply List.map_congr_left
  intro i _
  simp [Nat.add_assoc]

/-! ## The write loop -/

/-- Unfolding of one iteration of the write loop. -/
theorem writeLoop_succ (self : M24LC256) (ps : Nat) (mem : Nat → Nat)
    (fuel remaining next_in next_out : Nat) (h0 : remaining ≠ 0) (h : remaining < 65536) :
    self.writeLoop ps mem (fuel + 1) remaining next_in next_out
      = (self.writeLoop ps mem fuel (remaining - min remaining ps) (next_in + min remaining ps)
          ((next_out + min remaining ps) % 65536)).map
          (fun rest => (self.WriteChunk ps mem next_out remaining next_in).2 :: rest) := by
  have h1 : (remaining + 65536 - min remaining ps) % 65536 = remaining - min remaining ps := by
    omega
  simp only [M24LC256.writeLoop, if_neg h0, WriteChunk_fst self ps mem _ _ _ h, h1]

/-- Induction principle for the write loop: with `page_size` positive and fuel
at least `remaining`, the loop ends, and any property that holds of the empty
run and is preserved by prepending one iteration holds of its transmissions. -/
theorem writeLoop_ind (self : M24LC256) (ps : Nat) (mem : Nat → Nat) (hps : 0 < ps)
    (P : Nat → Nat → Nat → List WriteTxn → Prop)
    (hnil : ∀ next_in next_out, P 0 next_in next_out [])
    (hcons : ∀ remaining next_in next_out rest, 0 < remaining → remaining < 65536 →
      (remaining ≤ ps → rest = []) →
      P (remaining - min remaining ps) (next_in + min remaining ps)
        ((next_out + min remaining ps) % 65536) rest →
      P remaining next_in next_out
        ((self.WriteChunk ps mem next_out remaining next_in).2 :: rest)) :
    ∀ fuel remaining next_in next_out, remaining ≤ fuel → remaining < 65536 →
      ∃ txns, self.writeLoop ps mem fuel remaining next_in next_out = some txns
        ∧ (remaining = 0 → txns = []) ∧ P remaining next_in next_out txns := by
  intro fuel
  induction fuel with
  | zero =>
    intro remaining next_in next_out hf _
    have : remaining = 0 := by omega
    subst this
    exact ⟨[], by simp [M24LC256.writeLoop], fun _ => rfl, hnil _ _⟩
  | succ fuel ih =>
    intro remaining next_in next_out hf hr
    by_cases h0 : remaining = 0
    · subst h0
      exact ⟨[], by simp [M24LC256.writeLoop], fun _ => rfl, hnil _ _⟩
    · obtain ⟨rest, hrest, hempty, hP⟩ :=
        ih (remaining - min remaining ps) (next_in + min remaining ps)
          ((next_out + min remaining ps) % 65536) (by omega) (by omega)
      refine ⟨(self.WriteChunk ps mem next_out remaining next_in).2 :: rest, ?_,
        fun h => absurd h h0, ?_⟩
      · rw [writeLoop_succ self ps mem fuel remaining next_in next_out h0 hr, hrest]
        rfl
      · exact hcons remaining next_in next_out rest (by omega) hr
          (fun hle => hempty (by omega)) hP

/-- Unfolding of `write` for a 16-bit request. -/
theorem write_eq (self : M24LC256) (ps : Nat) (hps : ps = 16 ∨ ps = 32 ∨ ps = 64)
    (fuel location : Nat) (mem : Nat → Nat) (len : Nat) (hlen : len < 65536) :
    self.write ps fuel location mem len
      = if location % ps ≠ 0 then
          (self.writeLoop ps mem fuel (len - min len (ps - location % ps))
            (min len (ps - location % ps))
            ((location + min len (ps - location % ps)) % 65536)).map
            (fun rest =>
              (self.WriteChunk ps mem location (min len (ps - location % ps)) 0).2 :: rest)
        else self.writeLoop ps mem fuel len 0 location := by
  have hm : location % ps < ps := Nat.mod_lt _ (by omega)
  have hc : min (min len (ps - location % ps)) ps = min len (ps - location % ps) := by omega
  have h1 : (len + 65536 - min len (ps - location % ps)) % 65536
      = len - min len (ps - location % ps) := by omega
  have h0 : min len (ps - location % ps) % 65536 = min len (ps - location % ps) := by omega
  simp only [M24LC256.write, and_mask_eq_mod ps hps, h0,
    WriteChunk_fst self ps mem _ _ _ (show min len (ps - location % ps) < 65536 by omega),
    hc, h1, Nat.zero_add]

/-- Transmissions of the write loop when it is entered at a multiple of
`page_size` (or with nothing left to write): each starts at a multiple of
`page_size` and carries between one and `page_size` bytes. -/
theorem writeLoop_chunks (self : M24LC256) (ps : Nat) (hps : ps = 16 ∨ ps = 32 ∨ ps = 64)
    (mem : Nat → Nat) (fuel remaining next_in next_out : Nat) (hf : remaining ≤ fuel)
    (hr : remaining < 65536) (ho : next_out < 65536)
    (ha : remaining ≠ 0 → next_out % ps = 0) :
    ∃ txns, self.writeLoop ps mem fuel remaining next_in next_out = some txns
      ∧ (remaining = 0 → txns = [])
      ∧ ∀ t ∈ txns, t.addr < 65536 ∧ t.addr % ps = 0 ∧ 1 ≤ t.payload.length
          ∧ t.payload.length ≤ ps := by
  have hpos : 0 < ps := by omega
  obtain ⟨txns, h1, h2, h3⟩ := writeLoop_ind self ps mem hpos
    (fun _ _ next_out txns => next_out < 65536 → next_out % ps = 0 →
      ∀ t ∈ txns, t.addr < 65536 ∧ t.addr % ps = 0 ∧ 1 ≤ t.payload.length
        ∧ t.payload.length ≤ ps)
    (fun _ _ _ _ t ht => by simp at ht)
    (fun remaining next_in next_out rest hpos hlt hlast ih ho ha t ht => by
      rcases List.mem_cons.mp ht with rfl | hmem
      · rw [WriteChunk_addr self ps mem _ _ _ ho, WriteChunk_payload self ps mem _ _ _ hlt,
          bytesAt_length]
        omega
      · by_cases hle : remaining ≤ ps
        · rw [hlast hle] at hmem
          simp at hmem
        · have hmin : min remaining ps = ps := by omega
          rw [hmin] at ih
          exact ih (Nat.mod_lt _ (by omega)) (by rcases hps with rfl | rfl | rfl <;> omega)
            t hmem)
    fuel remaining next_in next_out hf hr
  refine ⟨txns, h1, h2, ?_⟩
  by_cases h0 : remaining = 0
  · rw [h2 h0]
    intro t ht
    simp at ht
  · exact h3 ho (ha h0)

/-- Every transmission of `write`: its start address is a 16-bit value, it
carries at most `page_size` bytes, and it ends at or before the next multiple
of `page_size` after its start.  An empty transmission can only start off a
multiple of `page_size`. -/
theorem write_chunks (self : M24LC256) (ps : Nat) (hps : ps = 16 ∨ ps = 32 ∨ ps = 64)
    (fuel location : Nat) (mem : Nat → Nat) (len : Nat) (hloc : location < 65536)
    (hlen : len < 65536) (hfuel : len ≤ fuel) :
    ∃ txns, self.write ps fuel location mem len = some txns
      ∧ ∀ t ∈ txns, t.addr < 65536 ∧ t.addr % ps + t.payload.length ≤ ps
          ∧ (t.payload.length = 0 → t.addr % ps ≠ 0) := by
  rw [write_eq self ps hps fuel location mem len hlen]
  have hm : location % ps < ps := Nat.mod_lt _ (by omega)
  by_cases hmis : location % ps ≠ 0
  · rw [if_pos hmis]
    have hl1 : 1 ≤ location := by
      rcases Nat.eq_zero_or_pos location with h | h
      · simp [h] at hmis
      · exact h
    obtain ⟨rest, h1, _, h3⟩ := writeLoop_chunks self ps hps mem fuel
      (len - min len (ps - location % ps)) (min len (ps - location % ps))
      ((location + min len (ps - location % ps)) % 65536) (by omega) (by omega)
      (Nat.mod_lt _ (by omega))
      (by rcases hps with rfl | rfl | rfl <;> omega)
    refine ⟨_, by rw [h1]; rfl, fun t ht => ?_⟩
    rcases List.mem_cons.mp ht with rfl | hmem
    · rw [WriteChunk_addr self ps mem _ _ _ hloc,
        WriteChunk_payload self ps mem _ _ _ (show min len (ps - location % ps) < 65536 by omega),
        bytesAt_length]
      omega
    · obtain ⟨a1, a2, a3, a4⟩ := h3 t hmem
      omega
  · rw [if_neg hmis]
    obtain ⟨txns, h1, _, h3⟩ := writeLoop_chunks self ps hps mem fuel len 0 location hfuel hlen
      hloc (by omega)
    refine ⟨txns, h1, fun t ht => ?_⟩
    obtain ⟨a1, a2, a3, a4⟩ := h3 t ht
    omega

/-! ## Claims about `write` -/

/-- C1: no write transmission crosses a 64-byte chip page.  For `page_size` 16,
32 or 64, every 16-bit location and length and every buffer, `write` ends
(with fuel at least `len`) and each transmission, starting at `a` with `n`
payload bytes, satisfies `a / 64 = (a + n - 1) / 64`; here `1 ≤ a + n`, so the
subtraction is the integer one. -/
theorem write_no_transmission_crosses_page (self : M24LC256) (ps : Nat)
    (hps : ps = 16 ∨ ps = 32 ∨ ps = 64) (fuel location : Nat) (mem : Nat → Nat) (len : Nat)
    (hloc : location < 65536) (hlen : len < 65536) (hfuel : len ≤ fuel) :
    ∃ txns, self.write ps fuel location mem len = some txns
      ∧ ∀ t ∈ txns, 1 ≤ t.addr + t.payload.length
          ∧ t.addr / 64 = (t.addr + t.payload.length - 1) / 64 := by
  obtain ⟨txns, h1, h2⟩ := write_chunks self ps hps fuel location mem len hloc hlen hfuel
  refine ⟨txns, h1, fun t ht => ?_⟩
  obtain ⟨_, a2, a3⟩ := h2 t ht
  have h64 : t.addr % 64 + t.payload.length ≤ 64 := by
    rcases hps with rfl | rfl | rfl
    · have : t.addr % 64 = t.addr % 16 + 16 * (t.addr / 16 % 4) := by omega
      omega
    · have : t.addr % 64 = t.addr % 32 + 32 * (t.addr / 32 % 2) := by omega
      omega
    · exact a2
  have hne : t.payload.length = 0 → t.addr % 64 ≠ 0 := by
    intro h0
    have := a3 h0
    rcases hps with rfl | rfl | rfl <;> omega
  omega

/-- Witness for C1: a misaligned 300-byte write near the top of the 16-bit
range with 32-byte chunks. -/
theorem write_no_transmission_crosses_page_witness :
    ∃ txns, (M24LC256.ctor 3).write 32 300 0xFFF5 (fun i => i % 256) 300 = some txns
      ∧ ∀ t ∈ txns, 1 ≤ t.addr + t.payload.length
          ∧ t.addr / 64 = (t.addr + t.payload.length - 1) / 64 :=
  write_no_transmission_crosses_page (M24LC256.ctor 3) 32 (by decide) 300 0xFFF5
    (fun i => i % 256) 300 (by decide) (by decide) (by decide)

/-- Prepending one transmission to a run of transmissions that carries
consecutive caller bytes to consecutive chip offsets gives such a run. -/
theorem run_cons (mem : Nat → Nat) (t : WriteTxn) (rest : List WriteTxn)
    (next_in next_out remaining w : Nat) (ho : next_out < 65536) (hw : w ≤ remaining)
    (haddr : t.addr = next_out) (hpay : t.payload = bytesAt mem next_in w)
    (hrest : (rest.map (fun t => t.payload)).flatten = bytesAt mem (next_in + w) (remaining - w)
      ∧ (rest.map (fun t => t.payload.length)).sum = remaining - w
      ∧ ∀ k (hk : k < rest.length), rest[k].addr
          = ((next_out + w) % 65536 + ((rest.take k).map (fun t => t.payload.length)).sum)
              % 65536) :
    ((t :: rest).map (fun t => t.payload)).flatten = bytesAt mem next_in remaining
      ∧ ((t :: rest).map (fun t => t.payload.length)).sum = remaining
      ∧ ∀ k (hk : k < (t :: rest).length), (t :: rest)[k].addr
          = (next_out + (((t :: rest).take k).map (fun t => t.payload.length)).sum) % 65536 := by
  obtain ⟨h1, h2, h3⟩ := hrest
  refine ⟨?_, ?_, ?_⟩
  · rw [List.map_cons, List.flatten_cons, h1, hpay, ← bytesAt_add]
    congr 1
    omega
  · rw [List.map_cons, List.sum_cons, h2, hpay, bytesAt_length]
    omega
  · intro k hk
    cases k with
    | zero =>
      simp only [List.getElem_cons_zero, List.take_zero, List.map_nil, List.sum_nil, haddr]
      omega
    | succ k =>
      have hk2 : k < rest.length := by simpa using hk
      simp only [List.getElem_cons_succ, List.take_succ_cons, List.map_cons, List.sum_cons,
        h3 k hk2, hpay, bytesAt_length]
      omega

/-- C3: `write` transmits exactly the caller's bytes, in order, to consecutive
chip offsets.  The payloads concatenated in issue order are `buf[0..len)`,
their lengths sum to `len`, and the `k`-th transmission starts at
`(location + bytes sent by earlier transmissions) mod 2^16`. -/
theorem write_transmits_buffer_in_order (self : M24LC256) (ps : Nat)
    (hps : ps = 16 ∨ ps = 32 ∨ ps = 64) (fuel location : Nat) (mem : Nat → Nat) (len : Nat)
    (hloc : location < 65536) (hlen : len < 65536) (hfuel : len ≤ fuel) :
    ∃ txns, self.write ps fuel location mem len = some txns
      ∧ (txns.map (fun t => t.payload)).flatten = bytesAt mem 0 len
      ∧ (txns.map (fun t => t.payload.length)).sum = len
      ∧ ∀ k (hk : k < txns.length), txns[k].addr
          = (location + ((txns.take k).map (fun t => t.payload.length)).sum) % 65536 := by
  have hpos : 0 < ps := by omega
  have loop := writeLoop_ind self ps mem hpos
    (fun remaining next_in next_out txns => next_out < 65536 →
      (txns.map (fun t => t.payload)).flatten = bytesAt mem next_in remaining
      ∧ (txns.map (fun t => t.payload.length)).sum = remaining
      ∧ ∀ k (hk : k < txns.length), txns[k].addr
          = (next_out + ((txns.take k).map (fun t => t.payload.length)).sum) % 65536)
    (fun next_in next_out _ => ⟨by simp [bytesAt], by simp, fun k hk => by simp at hk⟩)
    (fun remaining next_in next_out rest _ hlt _ ih ho =>
      run_cons mem _ rest next_in next_out remaining (min remaining ps) ho (by omega)
        (WriteChunk_addr self ps mem _ _ _ ho) (WriteChunk_payload self ps mem _ _ _ hlt)
        (ih (Nat.mod_lt _ (by omega))))
  rw [write_eq self ps hps fuel location mem len hlen]
  have hm : location % ps < ps := Nat.mod_lt _ hpos
  by_cases hmis : location % ps ≠ 0
  · rw [if_pos hmis]
    obtain ⟨rest, h1, _, h3⟩ := loop fuel (len - min len (ps - location % ps))
      (min len (ps - location % ps)) ((location + min len (ps - location % ps)) % 65536)
      (by omega) (by omega)
    refine ⟨_, by rw [h1]; rfl, ?_⟩
    have hc : min (min len (ps - location % ps)) ps = min len (ps - location % ps) := by omega
    have hrest := h3 (Nat.mod_lt _ (by omega))
    rw [← Nat.zero_add (min len (ps - location % ps))] at hrest
    exact run_cons mem _ rest 0 location len (min len (ps - location % ps)) hloc (by omega)
      (WriteChunk_addr self ps mem _ _ _ hloc)
      (by rw [WriteChunk_payload self ps mem _ _ _
        (show min len (ps - location % ps) < 65536 by omega), hc])
      (by simpa using hrest)
  · rw [if_neg hmis]
    obtain ⟨txns, h1, _, h3⟩ := loop fuel len 0 location hfuel hlen
    exact ⟨txns, h1, h3 hloc⟩

/-- Witness for C3: 53 bytes written at offset 13 with 16-byte chunks. -/
theorem write_transmits_buffer_in_order_witness :
    ∃ txns, (M24LC256.ctor 0).write 16 53 13 (fun i => i) 53 = some txns
      ∧ (txns.map (fun t => t.payload)).flatten = bytesAt (fun i => i) 0 53
      ∧ (txns.map (fun t => t.payload.length)).sum = 53
      ∧ ∀ k (hk : k < txns.length), txns[k].addr
          = (13 + ((txns.take k).map (fun t => t.payload.length)).sum) % 65536 :=
  write_transmits_buffer_in_order (M24LC256.ctor 0) 16 (by decide) 53 13 (fun i => i) 53
    (by decide) (by decide) (by decide)

/-- C4: at the failing input `write(0x7FF0, buf, 32)` with 16-byte chunks the
code transmits all 32 bytes: after the 16 bytes that fit below 0x8000 it
issues a second transmission whose address bytes are 0x80, 0x00, carrying
`buf[16..32)`. -/
theorem write_past_top_transmits_everything :
    (M24LC256.ctor 0).write 16 32 0x7FF0 (fun i => i) 32
      = some [ { device := 0x50, hi := 0x7F, lo := 0xF0,
                 payload := [0, 1, 2, 3, 4, 5, 6, 7, 8, 9, 10, 11, 12, 13, 14, 15] },
               { device := 0x50, hi := 0x80, lo := 0x00,
                 payload := [16, 17, 18, 19, 20, 21, 22, 23, 24, 25, 26, 27, 28, 29, 30,
                   31] } ] := by
  decide

/-! ## `ReadChunk` -/

/-- The drain loop takes `min available remaining` bytes and stores them, in
order, from `next` on; every other position keeps its value. -/
theorem drain_spec (avail : List Nat) :
    ∀ (remaining : Nat) (mem : Nat → Nat) (next bytes_received : Nat), remaining < 65536 →
      bytes_received + min avail.length remaining < 65536 →
      (drain avail remaining mem next bytes_received).2
          = bytes_received + min avail.length remaining
        ∧ ∀ i, (drain avail remaining mem next bytes_received).1 i
            = if next ≤ i ∧ i < next + min avail.length remaining
              then avail.getD (i - next) 0 else mem i := by
  induction avail with
  | nil =>
    intro remaining mem next bytes_received _ _
    simp only [drain, List.length_nil, Nat.zero_min, Nat.add_zero]
    exact ⟨trivial, fun i => by rw [if_neg (by omega)]⟩
  | cons b rest ih =>
    intro remaining mem next bytes_received hr hb
    by_cases h0 : remaining = 0
    · subst h0
      simp only [drain, if_true, Nat.min_zero, Nat.add_zero]
      exact ⟨trivial, fun i => by rw [if_neg (by omega)]⟩
    · have hlen : (b :: rest).length = rest.length + 1 := rfl
      rw [hlen] at hb
      have h1 : (remaining + 65536 - 1) % 65536 = remaining - 1 := by omega
      have h2 : (bytes_received + 1) % 65536 = bytes_received + 1 := by omega
      have hmin : min (rest.length + 1) remaining = min rest.length (remaining - 1) + 1 := by
        omega
      obtain ⟨ih1, ih2⟩ := ih (remaining - 1) (Function.update mem next b) (next + 1)
        (bytes_received + 1) (by omega) (by omega)
      simp only [drain, if_neg h0, h1, h2, hlen, hmin]
      refine ⟨by rw [ih1]; omega, fun i => ?_⟩
      rw [ih2 i]
      by_cases hi : i = next
      · subst hi
        simp
      · by_cases hin : next + 1 ≤ i ∧ i < next + 1 + min rest.length (remaining - 1)
        · have hin2 : next ≤ i ∧ i < next + (min rest.length (remaining - 1) + 1) := by omega
          rw [if_pos hin, if_pos hin2]
          have : i - next = (i - (next + 1)) + 1 := by omega
          rw [this, List.getD_cons_succ]
        · have hin2 : ¬ (next ≤ i ∧ i < next + (min rest.length (remaining - 1) + 1)) := by
            omega
          rw [if_neg hin, if_neg hin2, Function.update_noteq hi]

/-- The request `ReadChunk` puts on the bus. -/
theorem ReadChunk_req {σ : Type} (self : M24LC256) (T : Transport σ) (s : σ)
    (mem : Nat → Nat) (location length data : Nat) (hloc : location < 65536)
    (hlen : length < 65536) :
    (self.ReadChunk T s mem location length data).txn.req.addr = location
      ∧ (self.ReadChunk T s mem location length data).txn.req.quantity = min length 16
      ∧ (self.ReadChunk T s mem location length data).txn.req.device = self.i2c_address := by
  have h1 : min length 16 % 65536 = min length 16 := by omega
  simp only [M24LC256.ReadChunk, ReadReq.addr, h1]
  exact ⟨addr_bytes location hloc, trivial, trivial⟩

/-- What `ReadChunk` returns and leaves in memory, in terms of the bytes the
transport made available for its request. -/
theorem ReadChunk_spec {σ : Type} (self : M24LC256) (T : Transport σ) (s : σ)
    (mem : Nat → Nat) (location length data : Nat) (hlen : length < 65536) :
    let c := self.ReadChunk T s mem location length data
    c.txn.available = (T s c.txn.req).1
      ∧ c.state = (T s c.txn.req).2
      ∧ c.txn.received = c.bytes_received
      ∧ c.bytes_received = min c.txn.available.length c.txn.req.quantity
      ∧ c.bytes_received ≤ min length 16
      ∧ ∀ i, c.mem i = if data ≤ i ∧ i < data + c.bytes_received
          then c.txn.available.getD (i - data) 0 else mem i := by
  have h1 : min length 16 % 65536 = min length 16 := by omega
  simp only [M24LC256.ReadChunk, h1]
  obtain ⟨d1, d2⟩ := drain_spec
    (T s { device := self.i2c_address, hi := (location >>> 8) % 256,
           lo := (location &&& 0xff) % 256, quantity := min length 16 }).1
    (min length 16) mem data 0 (by omega) (by omega)
  rw [Nat.zero_add] at d1
  refine ⟨trivial, trivial, trivial, d1, by rw [d1]; omega, fun i => ?_⟩
  rw [d2 i, d1]

/-! ## The read loop -/

/-- Unfolding of one iteration of the read loop. -/
theorem readLoop_succ {σ : Type} (self : M24LC256) (T : Transport σ) (fuel : Nat) (s : σ)
    (mem : Nat → Nat) (remaining next_memory next_chip bytes_received : Nat)
    (h0 : remaining ≠ 0) (h : remaining < 65536) :
    self.readLoop T (fuel + 1) s mem remaining next_memory next_chip bytes_received
      = if (self.ReadChunk T s mem next_chip remaining next_memory).bytes_received = 0 then
          some { bytes_received := bytes_received % 65536
                 mem := (self.ReadChunk T s mem next_chip remaining next_memory).mem
                 state := (self.ReadChunk T s mem next_chip remaining next_memory).state
                 log := [(self.ReadChunk T s mem next_chip remaining next_memory).txn] }
        else
          (self.readLoop T fuel (self.ReadChunk T s mem next_chip remaining next_memory).state
            (self.ReadChunk T s mem next_chip remaining next_memory).mem
            (remaining - (self.ReadChunk T s mem next_chip remaining next_memory).bytes_received)
            (next_memory
              + (self.ReadChunk T s mem next_chip remaining next_memory).bytes_received)
            ((next_chip
              + (self.ReadChunk T s mem next_chip remaining next_memory).bytes_received) % 65536)
            ((bytes_received
              + (self.ReadChunk T s mem next_chip remaining next_memory).bytes_received)
                % 65536)).map
            (ReadResult.push (self.ReadChunk T s mem next_chip remaining next_memory).txn) := by
  have hle := (ReadChunk_spec self T s mem next_chip remaining next_memory h).2.2.2.2.1
  have h1 : (remaining + 65536
      - (self.ReadChunk T s mem next_chip remaining next_memory).bytes_received) % 65536
      = remaining - (self.ReadChunk T s mem next_chip remaining next_memory).bytes_received := by
    omega
  simp only [M24LC256.readLoop, if_neg h0, h1]
  by_cases hz : (self.ReadChunk T s mem next_chip remaining next_memory).bytes_received = 0
  · simp only [if_pos hz, hz, Nat.add_zero]
  · simp only [if_neg hz]

/-- Induction principle for the read loop: with fuel at least `remaining` the
loop ends whatever the transport does, and a property holds of its result if
it holds when nothing remains, when a chunk read delivers nothing (the loop is
left), and is preserved by prepending an iteration that delivered something. -/
theorem readLoop_ind {σ : Type} (self : M24LC256) (T : Transport σ)
    (P : σ → (Nat → Nat) → Nat → Nat → Nat → Nat → ReadResult σ → Prop)
    (hnil : ∀ s mem next_memory next_chip bytes_received,
      P s mem 0 next_memory next_chip bytes_received
        { bytes_received := bytes_received, mem := mem, state := s, log := [] })
    (hstop : ∀ s mem remaining next_memory next_chip bytes_received,
      0 < remaining → remaining < 65536 →
      (self.ReadChunk T s mem next_chip remaining next_memory).bytes_received = 0 →
      P s mem remaining next_memory next_chip bytes_received
        { bytes_received := bytes_received % 65536
          mem := (self.ReadChunk T s mem next_chip remaining next_memory).mem
          state := (self.ReadChunk T s mem next_chip remaining next_memory).state
          log := [(self.ReadChunk T s mem next_chip remaining next_memory).txn] })
    (hcons : ∀ s mem remaining next_memory next_chip bytes_received r,
      0 < remaining → remaining < 65536 →
      0 < (self.ReadChunk T s mem next_chip remaining next_memory).bytes_received →
      P (self.ReadChunk T s mem next_chip remaining next_memory).state
        (self.ReadChunk T s mem next_chip remaining next_memory).mem
        (remaining - (self.ReadChunk T s mem next_chip remaining next_memory).bytes_received)
        (next_memory + (self.ReadChunk T s mem next_chip remaining next_memory).bytes_received)
        ((next_chip
          + (self.ReadChunk T s mem next_chip remaining next_memory).bytes_received) % 65536)
        ((bytes_received
          + (self.ReadChunk T s mem next_chip remaining next_memory).bytes_received) % 65536)
        r →
      P s mem remaining next_memory next_chip bytes_received
        (r.push (self.ReadChunk T s mem next_chip remaining next_memory).txn)) :
    ∀ fuel s mem remaining next_memory next_chip bytes_received, remaining ≤ fuel →
      remaining < 65536 →
      ∃ r, self.readLoop T fuel s mem remaining next_memory next_chip bytes_received = some r
        ∧ P s mem remaining next_memory next_chip bytes_received r := by
  intro fuel
  induction fuel with
  | zero =>
    intro s mem remaining next_memory next_chip bytes_received hf _
    have : remaining = 0 := by omega
    subst this
    exact ⟨_, by simp [M24LC256.readLoop], hnil _ _ _ _ _⟩
  | succ fuel ih =>
    intro s mem remaining next_memory next_chip bytes_received hf hr
    by_cases h0 : remaining = 0
    · subst h0
      exact ⟨_, by simp [M24LC256.readLoop], hnil _ _ _ _ _⟩
    · rw [readLoop_succ self T fuel s mem remaining next_memory next_chip bytes_received h0 hr]
      by_cases hz : (self.ReadChunk T s mem next_chip remaining next_memory).bytes_received = 0
      · rw [if_pos hz]
        exact ⟨_, rfl, hstop s mem remaining next_memory next_chip bytes_received (by omega) hr hz⟩
      · rw [if_neg hz]
        obtain ⟨r, hr1, hr2⟩ :=
          ih (self.ReadChunk T s mem next_chip remaining next_memory).state
            (self.ReadChunk T s mem next_chip remaining next_memory).mem
            (remaining - (self.ReadChunk T s mem next_chip remaining next_memory).bytes_received)
            (next_memory
              + (self.ReadChunk T s mem next_chip remaining next_memory).bytes_received)
            ((next_chip
              + (self.ReadChunk T s mem next_chip remaining next_memory).bytes_received) % 65536)
            ((bytes_received
              + (self.ReadChunk T s mem next_chip remaining next_memory).bytes_received)
                % 65536)
            (by omega) (by omega)
        refine ⟨r.push (self.ReadChunk T s mem next_chip remaining next_memory).txn, ?_, ?_⟩
        · rw [hr1]
          rfl
        · exact hcons s mem remaining next_memory next_chip bytes_received r (by omega) hr
            (by omega) hr2

/-- Unfolding of `read` for a 16-bit request. -/
theorem read_eq {σ : Type} (self : M24LC256) (T : Transport σ) (fuel : Nat) (s : σ)
    (location : Nat) (mem : Nat → Nat) (len : Nat) (hlen : len < 65536) :
    self.read T fuel s location mem len
      = if location % 16 ≠ 0 then
          (self.readLoop T fuel
            (self.ReadChunk T s mem location (min len (16 - location % 16)) 0).state
            (self.ReadChunk T s mem location (min len (16 - location % 16)) 0).mem
            (len - (self.ReadChunk T s mem location (min len (16 - location % 16)) 0).bytes_received)
            (self.ReadChunk T s mem location (min len (16 - location % 16)) 0).bytes_received
            ((location
              + (self.ReadChunk T s mem location (min len (16 - location % 16)) 0).bytes_received)
                % 65536)
            (self.ReadChunk T s mem location (min len (16 - location % 16)) 0).bytes_received).map
            (ReadResult.push (self.ReadChunk T s mem location (min len (16 - location % 16)) 0).txn)
        else self.readLoop T fuel s mem len 0 location 0 := by
  have hle := (ReadChunk_spec self T s mem location (min len (16 - location % 16)) 0
    (by omega)).2.2.2.2.1
  have h1 : (len + 65536
      - (self.ReadChunk T s mem location (min len (16 - location % 16)) 0).bytes_received) % 65536
      = len - (self.ReadChunk T s mem location (min len (16 - location % 16)) 0).bytes_received := by
    omega
  have h2 : (self.ReadChunk T s mem location (min len (16 - location % 16)) 0).bytes_received
      % 65536
      = (self.ReadChunk T s mem location (min len (16 - location % 16)) 0).bytes_received := by
    omega
  have h0 : min len (16 - location % 16) % 65536 = min len (16 - location % 16) := by omega
  simp only [M24LC256.read, and_0xf_eq_mod, Nat.zero_add, h0, h1, h2]

/-- The chunk reads of the read loop, for any transport: the returned count is
the entry count plus what the chunk reads took, that is at most `remaining`,
there are at most `remaining` chunk reads, and each asks for at most 16 bytes
and takes `min available requested`. -/
theorem readLoop_log {σ : Type} (self : M24LC256) (T : Transport σ) (fuel : Nat) (s : σ)
    (mem : Nat → Nat) (remaining next_memory next_chip bytes_received : Nat)
    (hf : remaining ≤ fuel) (hr : remaining < 65536)
    (hb : bytes_received + remaining < 65536) :
    ∃ r, self.readLoop T fuel s mem remaining next_memory next_chip bytes_received = some r
      ∧ r.bytes_received = bytes_received + (r.log.map (fun t => t.received)).sum
      ∧ (r.log.map (fun t => t.received)).sum ≤ remaining
      ∧ r.log.length ≤ remaining
      ∧ ∀ t ∈ r.log, t.received = min t.available.length t.req.quantity
          ∧ t.req.quantity ≤ 16 := by
  obtain ⟨r, h1, h2⟩ := readLoop_ind self T
    (fun _ _ remaining _ _ bytes_received r => bytes_received + remaining < 65536 →
      r.bytes_received = bytes_received + (r.log.map (fun t => t.received)).sum
      ∧ (r.log.map (fun t => t.received)).sum ≤ remaining
      ∧ r.log.length ≤ remaining
      ∧ ∀ t ∈ r.log, t.received = min t.available.length t.req.quantity
          ∧ t.req.quantity ≤ 16)
    (fun _ _ _ _ _ _ => ⟨by simp, by simp, by simp, fun t ht => by simp at ht⟩)
    (fun s mem remaining next_memory next_chip bytes_received hpos hlt hz hb => by
      obtain ⟨_, _, c3, c4, c5, _⟩ :=
        ReadChunk_spec self T s mem next_chip remaining next_memory hlt
      have hq : (self.ReadChunk T s mem next_chip remaining next_memory).txn.req.quantity
          = min remaining 16 % 65536 := rfl
      refine ⟨?_, ?_, ?_, ?_⟩
      · simp only [List.map_cons, List.map_nil, List.sum_cons, List.sum_nil, c3, hz]
        omega
      · simp only [List.map_cons, List.map_nil, List.sum_cons, List.sum_nil, c3, hz]
        omega
      · simp only [List.length_singleton]
        omega
      · intro t ht
        rw [List.mem_singleton] at ht
        subst ht
        exact ⟨by rw [c3]; exact c4, by rw [hq]; omega⟩)
    (fun s mem remaining next_memory next_chip bytes_received r hpos hlt hk ih hb => by
      obtain ⟨_, _, c3, c4, c5, _⟩ :=
        ReadChunk_spec self T s mem next_chip remaining next_memory hlt
      have hq : (self.ReadChunk T s mem next_chip remaining next_memory).txn.req.quantity
          = min remaining 16 % 65536 := rfl
      obtain ⟨i1, i2, i3, i4⟩ := ih (by omega)
      refine ⟨?_, ?_, ?_, ?_⟩
      · simp only [ReadResult.push, List.map_cons, List.sum_cons, c3, i1]
        omega
      · simp only [ReadResult.push, List.map_cons, List.sum_cons, c3]
        omega
      · simp only [ReadResult.push, List.length_cons]
        omega
      · intro t ht
        rcases List.mem_cons.mp ht with rfl | hmem
        · exact ⟨by rw [c3]; exact c4, by rw [hq]; omega⟩
        · exact i4 t hmem)
    fuel s mem remaining next_memory next_chip bytes_received hf hr
  exact ⟨r, h1, h2 hb⟩

/-- The chunk reads of `read`, for any transport: `read` ends, returns the sum
of what its chunk reads took, at most `len`, after at most `len + 1` chunk
reads, each asking for at most 16 bytes and taking `min available requested`. -/
theorem read_log {σ : Type} (self : M24LC256) (T : Transport σ) (fuel : Nat) (s : σ)
    (location : Nat) (mem : Nat → Nat) (len : Nat) (hlen : len < 65536) (hfuel : len ≤ fuel) :
    ∃ r, self.read T fuel s location mem len = some r
      ∧ r.bytes_received = (r.log.map (fun t => t.received)).sum
      ∧ r.bytes_received ≤ len
      ∧ r.log.length ≤ len + 1
      ∧ ∀ t ∈ r.log, t.received = min t.available.length t.req.quantity
          ∧ t.req.quantity ≤ 16 := by
  rw [read_eq self T fuel s location mem len hlen]
  by_cases hmis : location % 16 ≠ 0
  · rw [if_pos hmis]
    obtain ⟨_, _, c3, c4, c5, _⟩ :=
      ReadChunk_spec self T s mem location (min len (16 - location % 16)) 0 (by omega)
    have hq : (self.ReadChunk T s mem location (min len (16 - location % 16)) 0).txn.req.quantity
        = min (min len (16 - location % 16)) 16 % 65536 := rfl
    obtain ⟨r, h1, h2, h3, h4, h5⟩ := readLoop_log self T fuel
      (self.ReadChunk T s mem location (min len (16 - location % 16)) 0).state
      (self.ReadChunk T s mem location (min len (16 - location % 16)) 0).mem
      (len - (self.ReadChunk T s mem location (min len (16 - location % 16)) 0).bytes_received)
      (self.ReadChunk T s mem location (min len (16 - location % 16)) 0).bytes_received
      ((location
        + (self.ReadChunk T s mem location (min len (16 - location % 16)) 0).bytes_received)
          % 65536)
      (self.ReadChunk T s mem location (min len (16 - location % 16)) 0).bytes_received
      (by omega) (by omega) (by omega)
    refine ⟨r.push (self.ReadChunk T s mem location (min len (16 - location % 16)) 0).txn,
      by rw [h1]; rfl, ?_, ?_, ?_, ?_⟩
    · simp only [ReadResult.push, List.map_cons, List.sum_cons, c3, h2]
    · simp only [ReadResult.push, h2]
      omega
    · simp only [ReadResult.push, List.length_cons]
      omega
    · intro t ht
      rcases List.mem_cons.mp ht with rfl | hmem
      · exact ⟨by rw [c3]; exact c4, by rw [hq]; omega⟩
      · exact h5 t hmem
  · rw [if_neg hmis]
    obtain ⟨r, h1, h2, h3, h4, h5⟩ := readLoop_log self T fuel s mem len 0 location 0 hfuel hlen
      (by omega)
    exact ⟨r, h1, by rw [h2]; omega, by rw [h2]; omega, by omega, h5⟩

/-- The write loop issues `ceil(remaining / page_size)` transmissions. -/
theorem writeLoop_length (self : M24LC256) (ps : Nat) (hps : ps = 16 ∨ ps = 32 ∨ ps = 64)
    (mem : Nat → Nat) (fuel remaining next_in next_out : Nat) (hf : remaining ≤ fuel)
    (hr : remaining < 65536) :
    ∃ txns, self.writeLoop ps mem fuel remaining next_in next_out = some txns
      ∧ txns.length = (remaining + ps - 1) / ps := by
  obtain ⟨txns, h1, _, h3⟩ := writeLoop_ind self ps mem (by omega)
    (fun remaining _ _ txns => txns.length = (remaining + ps - 1) / ps)
    (fun _ _ => by rcases hps with rfl | rfl | rfl <;> simp)
    (fun remaining next_in next_out rest hpos hlt _ ih => by
      dsimp only at ih ⊢
      rw [List.length_cons, ih]
      rcases hps with rfl | rfl | rfl <;> omega)
    fuel remaining next_in next_out hf hr
  exact ⟨txns, h1, h3⟩

/-! ## Claims about `read`, zero-length requests and chunk counts -/

/-- C5: at the failing input `read(0x7FF0, buf, 32)`, against a transport
that delivers every requested byte, the code returns 32 (not
`0x8000 - 0x7FF0 = 16`) and its second chunk read asks for 16 bytes at the
address bytes 0x80, 0x00, that is at chip offset 0x8000. -/
theorem read_past_top_requests_everything :
    ((M24LC256.ctor 0).read (fun (s : Unit) req => (List.replicate req.quantity 0xAB, s)) 32 ()
        0x7FF0 (fun _ => 0) 32).map
        (fun r => (r.bytes_received,
          r.log.map (fun t => (t.req.hi, t.req.lo, t.req.quantity, t.received))))
      = some (32, [(0x7F, 0xF0, 16, 16), (0x80, 0x00, 16, 16)]) := by
  decide

/-- C6: the value `read` returns is the number of bytes received and never
exceeds the request.  For every transport behaviour, `read` ends and returns
the sum of the byte counts its chunk reads delivered (each of them
`min available requested`), and that value is at most `len`. -/
theorem read_returns_bytes_received {σ : Type} (self : M24LC256) (T : Transport σ)
    (fuel : Nat) (s : σ) (location : Nat) (mem : Nat → Nat) (len : Nat)
    (hlen : len < 65536) (hfuel : len ≤ fuel) :
    ∃ r, self.read T fuel s location mem len = some r
      ∧ r.bytes_received = (r.log.map (fun t => t.received)).sum
      ∧ (∀ t ∈ r.log, t.received = min t.available.length t.req.quantity)
      ∧ r.bytes_received ≤ len := by
  obtain ⟨r, h1, h2, h3, _, h5⟩ := read_log self T fuel s location mem len hlen hfuel
  exact ⟨r, h1, h2, fun t ht => (h5 t ht).1, h3⟩

/-- Witness for C6: a transport that always makes three bytes available, asked
for 40 bytes at offset 5. -/
theorem read_returns_bytes_received_witness :
    ∃ r, (M24LC256.ctor 0).read (fun (s : Unit) _ => ([7, 8, 9], s)) 40 () 5 (fun _ => 0) 40
        = some r
      ∧ r.bytes_received = (r.log.map (fun t => t.received)).sum
      ∧ (∀ t ∈ r.log, t.received = min t.available.length t.req.quantity)
      ∧ r.bytes_received ≤ 40 :=
  read_returns_bytes_received (M24LC256.ctor 0) (fun (s : Unit) _ => ([7, 8, 9], s)) 40 () 5
    (fun _ => 0) 40 (by decide) (by decide)

/-- C7: `read` never blocks indefinitely.  For every transport behaviour
(also one delivering nothing, or fewer bytes than requested), `read` with fuel
at least `len` returns, after at most `len + 1` chunk reads. -/
theorem read_terminates {σ : Type} (self : M24LC256) (T : Transport σ)
    (fuel : Nat) (s : σ) (location : Nat) (mem : Nat → Nat) (len : Nat)
    (hlen : len < 65536) (hfuel : len ≤ fuel) :
    ∃ r, self.read T fuel s location mem len = some r ∧ r.log.length ≤ len + 1 := by
  obtain ⟨r, h1, _, _, h4, _⟩ := read_log self T fuel s location mem len hlen hfuel
  exact ⟨r, h1, h4⟩

/-- Witness for C7: a device that never delivers a byte, asked for 1000 bytes
at a misaligned offset. -/
theorem read_terminates_witness :
    ∃ r, (M24LC256.ctor 1).read (fun (s : Unit) _ => ([], s)) 1000 () 0x1235 (fun _ => 0) 1000
        = some r ∧ r.log.length ≤ 1000 + 1 :=
  read_terminates (M24LC256.ctor 1) (fun (s : Unit) _ => ([], s)) 1000 () 0x1235 (fun _ => 0)
    1000 (by decide) (by decide)

/-- C8: at the failing inputs `write(5, buf, 0)` and `read(5, buf, 0)` (offset
5 is not a multiple of 16) the code performs one bus transaction each: a
transmission of the two address bytes with an empty payload, and a chunk read
asking for zero bytes.  `read` returns 0. -/
theorem zero_length_at_misaligned_offset_issues_transaction :
    (M24LC256.ctor 0).write 16 0 5 (fun i => i) 0
        = some [{ device := 0x50, hi := 0, lo := 5, payload := [] }]
      ∧ ((M24LC256.ctor 0).read (fun (s : Unit) req => (List.replicate req.quantity 0xAB, s))
          0 () 5 (fun _ => 0) 0).map (fun r => (r.bytes_received, r.log))
        = some (0, [{ req := { device := 0x50, hi := 0, lo := 5, quantity := 0 },
                      available := [], received := 0 }]) := by
  decide

/-- C9: chunk-size bound.  Every write transmission carries at most
`page_size` payload bytes, and, for every transport behaviour, every chunk
read asks for at most 16 bytes. -/
theorem chunk_size_bound {σ : Type} (self : M24LC256) (ps : Nat)
    (hps : ps = 16 ∨ ps = 32 ∨ ps = 64) (T : Transport σ) (fuel : Nat) (s : σ)
    (location : Nat) (mem : Nat → Nat) (len : Nat) (hloc : location < 65536)
    (hlen : len < 65536) (hfuel : len ≤ fuel) :
    (∃ txns, self.write ps fuel location mem len = some txns
        ∧ ∀ t ∈ txns, t.payload.length ≤ ps)
      ∧ ∃ r, self.read T fuel s location mem len = some r
        ∧ ∀ t ∈ r.log, t.req.quantity ≤ 16 := by
  constructor
  · obtain ⟨txns, h1, h2⟩ := write_chunks self ps hps fuel location mem len hloc hlen hfuel
    refine ⟨txns, h1, fun t ht => ?_⟩
    have := (h2 t ht).2.1
    omega
  · obtain ⟨r, h1, _, _, _, h5⟩ := read_log self T fuel s location mem len hlen hfuel
    exact ⟨r, h1, fun t ht => (h5 t ht).2⟩

/-- Witness for C9: 200 bytes at offset 77 with 64-byte write chunks and a
transport that makes 20 bytes available for every request. -/
theorem chunk_size_bound_witness :
    (∃ txns, (M24LC256.ctor 2).write 64 200 77 (fun i => i % 256) 200 = some txns
        ∧ ∀ t ∈ txns, t.payload.length ≤ 64)
      ∧ ∃ r, (M24LC256.ctor 2).read (fun (s : Unit) _ => (List.replicate 20 1, s)) 200 () 77
          (fun i => i % 256) 200 = some r
        ∧ ∀ t ∈ r.log, t.req.quantity ≤ 16 :=
  chunk_size_bound (M24LC256.ctor 2) 64 (by decide)
    (fun (s : Unit) _ => (List.replicate 20 1, s)) 200 () 77 (fun i => i % 256) 200
    (by decide) (by decide) (by decide)

/-- C10, as stated, fails: offset 1 is misaligned for 16-byte chunks, and
writing `3 * 16 + 5 = 53` bytes there takes 4 transmissions (15, 16, 16 and 6
bytes), not `ceil(53 / 16) + 1 = 5`. -/
theorem alignment_convergence_counterexample :
    1 % 16 ≠ 0
      ∧ ((M24LC256.ctor 0).write 16 53 1 (fun i => i) (3 * 16 + 5)).map
          (fun txns => txns.map (fun t => t.payload.length)) = some [15, 16, 16, 6]
      ∧ ((M24LC256.ctor 0).write 16 53 1 (fun i => i) (3 * 16 + 5)).map List.length
          ≠ some ((3 * 16 + 5 + 16 - 1) / 16 + 1) := by
  decide

/-- C10, amended: at a location misaligned by `m = location % page_size ≠ 0`,
writing `3 * page_size + 5` bytes takes one alignment transmission of
`page_size - m` bytes and then `ceil((2 * page_size + 5 + m) / page_size)`
transmissions of the loop: 5 in all (that is `ceil(total / page_size) + 1`)
when `m > page_size - 5`, and 4 (that is `ceil(total / page_size)`) when
`m ≤ page_size - 5`. -/
theorem alignment_convergence (self : M24LC256) (ps : Nat)
    (hps : ps = 16 ∨ ps = 32 ∨ ps = 64) (fuel location : Nat) (mem : Nat → Nat)
    (hmis : location % ps ≠ 0) (hfuel : 3 * ps + 5 ≤ fuel) :
    ∃ first rest, self.write ps fuel location mem (3 * ps + 5) = some (first :: rest)
      ∧ first.payload.length = ps - location % ps
      ∧ rest.length = (2 * ps + 5 + location % ps + ps - 1) / ps
      ∧ (first :: rest).length
          = if ps - 5 < location % ps then (3 * ps + 5 + ps - 1) / ps + 1
            else (3 * ps + 5 + ps - 1) / ps := by
  have hm : location % ps < ps := Nat.mod_lt _ (by omega)
  have hlen : 3 * ps + 5 < 65536 := by omega
  have hc : min (3 * ps + 5) (ps - location % ps) = ps - location % ps := by omega
  rw [write_eq self ps hps fuel location mem (3 * ps + 5) hlen, if_pos hmis, hc]
  obtain ⟨rest, h1, h2⟩ := writeLoop_length self ps hps mem fuel
    (3 * ps + 5 - (ps - location % ps)) (ps - location % ps)
    ((location + (ps - location % ps)) % 65536) (by omega) (by omega)
  refine ⟨_, rest, by rw [h1]; rfl, ?_, ?_, ?_⟩
  · rw [WriteChunk_payload self ps mem _ _ _ (by omega), bytesAt_length]
    omega
  · rw [h2]
    congr 1
    omega
  · rw [List.length_cons, h2]
    rcases hps with rfl | rfl | rfl <;> split_ifs <;> omega

/-- Witness for C10 (amended): offset 0x1234 with 32-byte chunks. -/
theorem alignment_convergence_witness :
    ∃ first rest, (M24LC256.ctor 0).write 32 101 0x1234 (fun i => i) (3 * 32 + 5)
        = some (first :: rest)
      ∧ first.payload.length = 32 - 0x1234 % 32
      ∧ rest.length = (2 * 32 + 5 + 0x1234 % 32 + 32 - 1) / 32
      ∧ (first :: rest).length
          = if 32 - 5 < 0x1234 % 32 then (3 * 32 + 5 + 32 - 1) / 32 + 1
            else (3 * 32 + 5 + 32 - 1) / 32 :=
  alignment_convergence (M24LC256.ctor 0) 32 (by decide) 101 0x1234 (fun i => i) (by decide)
    (by decide)

/-! ## Round trip over the simulated chip -/

theorem bytesAt_succ (mem : Nat → Nat) (data n : Nat) :
    bytesAt mem data (n + 1) = mem data :: bytesAt mem (data + 1) n := by
  rw [Nat.add_comm n 1, bytesAt_add]
  simp [bytesAt, List.range_succ]

/-- A page write that stays inside its page stores the payload at consecutive
addresses and leaves every other address alone. -/
theorem pageWrite_bytesAt (mem : Nat → Nat) (n : Nat) :
    ∀ (store : Nat → Nat) (a data : Nat), a % 64 + n ≤ 64 → ∀ x,
      pageWrite store a (bytesAt mem data n) x
        = if a ≤ x ∧ x < a + n then mem (data + (x - a)) else store x := by
  induction n with
  | zero =>
    intro store a data _ x
    rw [if_neg (by omega)]
    rfl
  | succ n ih =>
    intro store a data h x
    rw [bytesAt_succ, pageWrite]
    by_cases hn : n = 0
    · subst hn
      simp only [bytesAt, List.range_zero, List.map_nil, pageWrite]
      by_cases hx : x = a
      · subst hx
        simp
      · rw [Function.update_noteq hx, if_neg (by omega)]
    · have ha : a / 64 * 64 + (a + 1) % 64 = a + 1 := by omega
      rw [ha, ih _ (a + 1) (data + 1) (by omega) x]
      by_cases hx : x = a
      · subst hx
        rw [if_neg (by omega), if_pos (by omega)]
        simp
      · rw [Function.update_noteq hx]
        by_cases hin : a + 1 ≤ x ∧ x < a + 1 + n
        · rw [if_pos hin, if_pos (by omega)]
          congr 1
          omega
        · rw [if_neg hin, if_neg (by omega)]

theorem chipWrite_cons (store : Nat → Nat) (t : WriteTxn) (rest : List WriteTxn) :
    chipWrite store (t :: rest)
      = chipWrite (pageWrite store (t.addr % 0x8000) t.payload) rest := rfl

/-- One transmission inside a page followed by transmissions that store the
rest of a run: together they store the whole run. -/
theorem chipWrite_run_cons (mem : Nat → Nat) (t : WriteTxn) (rest : List WriteTxn)
    (next_in a remaining w : Nat) (ha : a < 0x8000) (hw : w ≤ remaining)
    (hpage : a % 64 + w ≤ 64) (haddr : t.addr = a) (hpay : t.payload = bytesAt mem next_in w)
    (hrest : ∀ store x, chipWrite store rest x
      = if a + w ≤ x ∧ x < a + w + (remaining - w) then mem (next_in + w + (x - (a + w)))
        else store x) :
    ∀ store x, chipWrite store (t :: rest) x
      = if a ≤ x ∧ x < a + remaining then mem (next_in + (x - a)) else store x := by
  intro store x
  have hmod : a % 0x8000 = a := Nat.mod_eq_of_lt ha
  rw [chipWrite_cons, hrest, haddr, hpay, hmod, pageWrite_bytesAt mem w store a next_in hpage x]
  by_cases h1 : a + w ≤ x ∧ x < a + w + (remaining - w)
  · rw [if_pos h1, if_pos (by omega)]
    congr 1
    omega
  · rw [if_neg h1]
    by_cases h2 : a ≤ x ∧ x < a + w
    · rw [if_pos h2, if_pos (by omega)]
    · rw [if_neg h2, if_neg (by omega)]

/-- The write loop, entered at a multiple of `page_size` with the run below
the top of the store, stores the run in the simulated chip. -/
theorem writeLoop_chip (self : M24LC256) (ps : Nat) (hps : ps = 16 ∨ ps = 32 ∨ ps = 64)
    (mem : Nat → Nat) (fuel remaining next_in next_out : Nat) (hf : remaining ≤ fuel)
    (hr : remaining < 65536) (htop : next_out + remaining ≤ 0x8000)
    (ha : remaining ≠ 0 → next_out % ps = 0) :
    ∃ txns, self.writeLoop ps mem fuel remaining next_in next_out = some txns
      ∧ ∀ store x, chipWrite store txns x
          = if next_out ≤ x ∧ x < next_out + remaining then mem (next_in + (x - next_out))
            else store x := by
  obtain ⟨txns, h1, _, h3⟩ := writeLoop_ind self ps mem (by omega)
    (fun remaining next_in next_out txns => next_out + remaining ≤ 0x8000 →
      (remaining ≠ 0 → next_out % ps = 0) →
      ∀ store x, chipWrite store txns x
          = if next_out ≤ x ∧ x < next_out + remaining then mem (next_in + (x - next_out))
            else store x)
    (fun next_in next_out _ _ store x => by
      rw [if_neg (by omega)]
      rfl)
    (fun remaining next_in next_out rest hpos hlt _ ih htop ha => by
      have hal := ha (by omega)
      have hno : (next_out + min remaining ps) % 65536 = next_out + min remaining ps := by omega
      rw [hno] at ih
      exact chipWrite_run_cons mem _ rest next_in next_out remaining (min remaining ps)
        (by omega) (by omega) (by rcases hps with rfl | rfl | rfl <;> omega)
        (WriteChunk_addr self ps mem _ _ _ (by omega))
        (WriteChunk_payload self ps mem _ _ _ hlt)
        (ih (by omega) (by rcases hps with rfl | rfl | rfl <;> omega)))
    fuel remaining next_in next_out hf hr
  exact ⟨txns, h1, h3 htop ha⟩

/-- The whole of `write`, for a run below the top of the store, stores
`buf[0..len)` at `location ..` in the simulated chip and changes nothing else. -/
theorem write_chip (self : M24LC256) (ps : Nat) (hps : ps = 16 ∨ ps = 32 ∨ ps = 64)
    (fuel location : Nat) (mem : Nat → Nat) (len : Nat) (hloc : location < 0x8000)
    (htop : location + len ≤ 0x8000) (hfuel : len ≤ fuel) :
    ∃ txns, self.write ps fuel location mem len = some txns
      ∧ ∀ store x, chipWrite store txns x
          = if location ≤ x ∧ x < location + len then mem (x - location) else store x := by
  have hlen : len < 65536 := by omega
  have hm : location % ps < ps := Nat.mod_lt _ (by omega)
  rw [write_eq self ps hps fuel location mem len hlen]
  by_cases hmis : location % ps ≠ 0
  · rw [if_pos hmis]
    have hno : (location + min len (ps - location % ps)) % 65536
        = location + min len (ps - location % ps) := by omega
    have hc : min (min len (ps - location % ps)) ps = min len (ps - location % ps) := by omega
    rw [hno]
    obtain ⟨rest, h1, h2⟩ := writeLoop_chip self ps hps mem fuel
      (len - min len (ps - location % ps)) (min len (ps - location % ps))
      (location + min len (ps - location % ps)) (by omega) (by omega) (by omega)
      (by rcases hps with rfl | rfl | rfl <;> omega)
    refine ⟨_, by rw [h1]; rfl, fun store x => ?_⟩
    have := chipWrite_run_cons mem
      (self.WriteChunk ps mem location (min len (ps - location % ps)) 0).2 rest 0 location len
      (min len (ps - location % ps)) hloc (by omega)
      (by rcases hps with rfl | rfl | rfl <;> omega)
      (WriteChunk_addr self ps mem _ _ _ (by omega))
      (by rw [WriteChunk_payload self ps mem _ _ _
        (show min len (ps - location % ps) < 65536 by omega), hc])
      (by simpa using h2) store x
    simpa using this
  · rw [if_neg hmis]
    obtain ⟨txns, h1, h2⟩ := writeLoop_chip self ps hps mem fuel len 0 location hfuel hlen htop
      (by omega)
    exact ⟨txns, h1, by simpa using h2⟩

theorem chipRead_length (store : Nat → Nat) (a n : Nat) : (chipRead store a n).length = n := by
  simp [chipRead]

theorem chipRead_getD (store : Nat → Nat) (a n j : Nat) (hj : j < n) :
    (chipRead store a n).getD j 0 = store ((a + j) % 0x8000) := by
  simp [chipRead, List.getD_eq_getElem?_getD, hj]

/-- A chunk read against the simulated chip, below the top of the store:
every requested byte is delivered and stored. -/
theorem ReadChunk_chip (self : M24LC256) (store mem : Nat → Nat)
    (location length data : Nat) (hlen : length < 65536)
    (htop : location + min length 16 ≤ 0x8000) :
    (self.ReadChunk chipTransport store mem location length data).bytes_received
        = min length 16
      ∧ (self.ReadChunk chipTransport store mem location length data).state = store
      ∧ ∀ i, (self.ReadChunk chipTransport store mem location length data).mem i
          = if data ≤ i ∧ i < data + min length 16 then store (location + (i - data))
            else mem i := by
  obtain ⟨c1, c2, _, c4, _, c6⟩ :=
    ReadChunk_spec self chipTransport store mem location length data hlen
  obtain ⟨r1, r2, _⟩ :=
    ReadChunk_req self chipTransport store mem location length data (by omega) hlen
  have havail : (self.ReadChunk chipTransport store mem location length data).txn.available
      = chipRead store (location % 0x8000) (min length 16) := by
    rw [c1]
    simp only [chipTransport, r1, r2]
  have hcount : (self.ReadChunk chipTransport store mem location length data).bytes_received
      = min length 16 := by
    rw [c4, havail, chipRead_length, r2]
    omega
  refine ⟨hcount, c2, fun i => ?_⟩
  rw [c6 i, hcount, havail]
  by_cases hin : data ≤ i ∧ i < data + min length 16
  · rw [if_pos hin, if_pos hin, chipRead_getD store _ _ _ (by omega)]
    congr 1
    omega
  · rw [if_neg hin, if_neg hin]

/-- The read loop against the simulated chip, below the top of the store:
it returns the entry count plus `remaining` and fills the destination with the
stored bytes. -/
theorem readLoop_chip (self : M24LC256) (fuel : Nat) (store mem : Nat → Nat)
    (remaining next_memory next_chip bytes_received : Nat) (hf : remaining ≤ fuel)
    (hr : remaining < 65536) (htop : next_chip + remaining ≤ 0x8000)
    (hb : bytes_received + remaining < 65536) :
    ∃ r, self.readLoop chipTransport fuel store mem remaining next_memory next_chip
          bytes_received = some r
      ∧ r.bytes_received = bytes_received + remaining
      ∧ ∀ i, r.mem i
          = if next_memory ≤ i ∧ i < next_memory + remaining
            then store (next_chip + (i - next_memory)) else mem i := by
  obtain ⟨r, h1, h2⟩ := readLoop_ind self chipTransport
    (fun s mem remaining next_memory next_chip bytes_received r =>
      next_chip + remaining ≤ 0x8000 → bytes_received + remaining < 65536 →
      r.bytes_received = bytes_received + remaining
      ∧ ∀ i, r.mem i
          = if next_memory ≤ i ∧ i < next_memory + remaining
            then s (next_chip + (i - next_memory)) else mem i)
    (fun s mem next_memory next_chip bytes_received _ _ =>
      ⟨rfl, fun i => by rw [if_neg (by omega)]⟩)
    (fun s mem remaining next_memory next_chip bytes_received hpos hlt hz htop _ => by
      have := (ReadChunk_chip self s mem next_chip remaining next_memory hlt (by omega)).1
      omega)
    (fun s mem remaining next_memory next_chip bytes_received r hpos hlt hk ih htop hb => by
      obtain ⟨k1, k2, k3⟩ :=
        ReadChunk_chip self s mem next_chip remaining next_memory hlt (by omega)
      rw [k1, k2] at ih
      have hno : (next_chip + min remaining 16) % 65536 = next_chip + min remaining 16 := by
        omega
      have hbr : (bytes_received + min remaining 16) % 65536
          = bytes_received + min remaining 16 := by omega
      rw [hno, hbr] at ih
      obtain ⟨i1, i2⟩ := ih (by omega) (by omega)
      refine ⟨?_, fun i => ?_⟩
      · simp only [ReadResult.push, i1]
        omega
      · simp only [ReadResult.push]
        rw [i2 i, k3 i]
        by_cases hin : next_memory + min remaining 16 ≤ i
            ∧ i < next_memory + min remaining 16 + (remaining - min remaining 16)
        · rw [if_pos hin, if_pos (by omega)]
          congr 1
          omega
        · rw [if_neg hin]
          by_cases hin2 : next_memory ≤ i ∧ i < next_memory + min remaining 16
          · rw [if_pos hin2, if_pos (by omega)]
          · rw [if_neg hin2, if_neg (by omega)])
    fuel store mem remaining next_memory next_chip bytes_received hf hr
  exact ⟨r, h1, h2 htop hb⟩

/-- The whole of `read` against the simulated chip, below the top of the
store: it returns `len` and `buf[0..len)` holds the stored bytes. -/
theorem read_chip (self : M24LC256) (fuel : Nat) (store : Nat → Nat) (location : Nat)
    (mem : Nat → Nat) (len : Nat) (htop : location + len ≤ 0x8000) (hfuel : len ≤ fuel) :
    ∃ r, self.read chipTransport fuel store location mem len = some r
      ∧ r.bytes_received = len
      ∧ ∀ i, r.mem i = if i < len then store (location + i) else mem i := by
  have hlen : len < 65536 := by omega
  rw [read_eq self chipTransport fuel store location mem len hlen]
  by_cases hmis : location % 16 ≠ 0
  · rw [if_pos hmis]
    have hc : min (min len (16 - location % 16)) 16 = min len (16 - location % 16) := by omega
    obtain ⟨k1, k2, k3⟩ := ReadChunk_chip self store mem location
      (min len (16 - location % 16)) 0 (by omega) (by omega)
    rw [hc] at k1 k3
    have hno : (location + min len (16 - location % 16)) % 65536
        = location + min len (16 - location % 16) := by omega
    rw [k1, k2, hno]
    obtain ⟨r, h1, h2, h3⟩ := readLoop_chip self fuel store
      (self.ReadChunk chipTransport store mem location (min len (16 - location % 16)) 0).mem
      (len - min len (16 - location % 16)) (min len (16 - location % 16))
      (location + min len (16 - location % 16)) (min len (16 - location % 16))
      (by omega) (by omega) (by omega) (by omega)
    refine ⟨_, by rw [h1]; rfl, ?_, fun i => ?_⟩
    · simp only [ReadResult.push, h2]
      omega
    · simp only [ReadResult.push]
      rw [h3 i, k3 i]
      by_cases hin : min len (16 - location % 16) ≤ i
          ∧ i < min len (16 - location % 16) + (len - min len (16 - location % 16))
      · rw [if_pos hin, if_pos (by omega)]
        congr 1
        omega
      · rw [if_neg hin]
        by_cases hin2 : 0 ≤ i ∧ i < 0 + min len (16 - location % 16)
        · rw [if_pos hin2, if_pos (by omega)]
          congr 1
        · rw [if_neg hin2, if_neg (by omega)]
  · rw [if_neg hmis]
    obtain ⟨r, h1, h2, h3⟩ := readLoop_chip self fuel store mem len 0 location 0 hfuel hlen
      htop (by omega)
    refine ⟨r, h1, by omega, fun i => ?_⟩
    rw [h3 i]
    by_cases hin : i < len
    · rw [if_pos (by omega), if_pos hin]
      congr 1
    · rw [if_neg (by omega), if_neg hin]

/-- C2: round trip over the simulated chip (32768-byte store, 64-byte pages,
a transport that delivers every requested byte).  For every offset
`o < 0x8000`, every length `l` with `o + l ≤ 0x8000` and every data,
`write(o, data, l)` followed by `read(o, buffer, l)` leaves
`buffer[0..l)` equal to `data[0..l)`, and `read` returns `l`. -/
theorem write_then_read_round_trip (self : M24LC256) (ps : Nat)
    (hps : ps = 16 ∨ ps = 32 ∨ ps = 64) (fuel o l : Nat) (data buffer store : Nat → Nat)
    (ho : o < 0x8000) (hl : o + l ≤ 0x8000) (hfuel : l ≤ fuel) :
    ∃ txns r, self.write ps fuel o data l = some txns
      ∧ self.read chipTransport fuel (chipWrite store txns) o buffer l = some r
      ∧ r.bytes_received = l
      ∧ ∀ i, i < l → r.mem i = data i := by
  obtain ⟨txns, w1, w2⟩ := write_chip self ps hps fuel o data l ho hl hfuel
  obtain ⟨r, r1, r2, r3⟩ := read_chip self fuel (chipWrite store txns) o buffer l hl hfuel
  refine ⟨txns, r, w1, r1, r2, fun i hi => ?_⟩
  rw [r3 i, if_pos hi, w2 store (o + i), if_pos (by omega)]
  congr 1
  omega

/-- Witness for C2: 300 bytes written and read back at offset 0x7ED4, ending
at the last byte of the chip, with 64-byte write chunks. -/
theorem write_then_read_round_trip_witness :
    ∃ txns r, (M24LC256.ctor 0).write 64 300 0x7ED4 (fun i => (7 * i + 1) % 256) 300 = some txns
      ∧ (M24LC256.ctor 0).read chipTransport 300 (chipWrite (fun _ => 0xFF) txns) 0x7ED4
          (fun _ => 0) 300 = some r
      ∧ r.bytes_received = 300
      ∧ ∀ i, i < 300 → r.mem i = (fun i => (7 * i + 1) % 256) i :=
  write_then_read_round_trip (M24LC256.ctor 0) 64 (by decide) 300 0x7ED4 300
    (fun i => (7 * i + 1) % 256) (fun _ => 0) (fun _ => 0xFF) (by decide) (by decide)
    (by decide)

/-! ## Zero-byte chunk reads -/

/-- C11: at the failing input `read(5, buf, 20)` against a device that never
delivers a byte, the alignment chunk read (11 bytes asked at offset 5)
delivers nothing, and the code still issues a further chunk read (16 bytes
asked at offset 5) before it returns 0. -/
theorem read_continues_after_empty_alignment_chunk :
    ((M24LC256.ctor 0).read (fun (s : Unit) _ => ([], s)) 20 () 5 (fun _ => 0) 20).map
        (fun r => (r.bytes_received, r.log))
      = some (0, [{ req := { device := 0x50, hi := 0, lo := 5, quantity := 11 },
                    available := [], received := 0 },
                  { req := { device := 0x50, hi := 0, lo := 5, quantity := 16 },
                    available := [], received := 0 }]) := by
  decide

/-- C12: at the failing input `read(5, buf, 10)` against a device that
delivers nothing for the first request and every requested byte afterwards,
the first chunk read delivers 0 bytes, yet the code returns 10, the full
length, which is neither less than `len` nor the sum (0) of the bytes
delivered before the zero-byte chunk. -/
theorem read_after_empty_alignment_chunk_returns_full_length :
    ((M24LC256.ctor 0).read
        (fun (n : Nat) req => (if n = 0 then [] else List.replicate req.quantity 0xAB, n + 1))
        10 0 5 (fun _ => 0) 10).map
        (fun r => (r.bytes_received, r.log.map (fun t => (t.req.quantity, t.received))))
      = some (10, [(10, 0), (10, 10)]) := by
  decide

/-! ## Count and shape of the write transmissions -/

/-- In the write loop every transmission carries `min(remaining, page_size)`
bytes, where `remaining` is what the earlier iterations left, and that is at
least one byte. -/
theorem writeLoop_payloads (self : M24LC256) (ps : Nat) (hps : 0 < ps) (mem : Nat → Nat)
    (fuel remaining next_in next_out : Nat) (hf : remaining ≤ fuel) (hr : remaining < 65536) :
    ∃ txns, self.writeLoop ps mem fuel remaining next_in next_out = some txns
      ∧ ∀ k (hk : k < txns.length), txns[k].payload.length
            = min (remaining - ((txns.take k).map (fun t => t.payload.length)).sum) ps
          ∧ 0 < txns[k].payload.length := by
  obtain ⟨txns, h1, _, h3⟩ := writeLoop_ind self ps mem hps
    (fun remaining _ _ txns => ∀ k (hk : k < txns.length), txns[k].payload.length
            = min (remaining - ((txns.take k).map (fun t => t.payload.length)).sum) ps
          ∧ 0 < txns[k].payload.length)
    (fun _ _ k hk => by simp at hk)
    (fun remaining next_in next_out rest hpos hlt _ ih k hk => by
      have hpay := WriteChunk_payload self ps mem next_out remaining next_in hlt
      cases k with
      | zero =>
        simp only [List.getElem_cons_zero, List.take_zero, List.map_nil, List.sum_nil, hpay,
          bytesAt_length]
        omega
      | succ k =>
        have hk2 : k < rest.length := by simpa using hk
        obtain ⟨i1, i2⟩ := ih k hk2
        simp only [List.getElem_cons_succ, List.take_succ_cons, List.map_cons, List.sum_cons,
          hpay, bytesAt_length]
        refine ⟨?_, i2⟩
        rw [i1]
        omega)
    fuel remaining next_in next_out hf hr
  exact ⟨txns, h1, h3⟩

/-- C13: write transaction count bound.  `write` ends and issues at most one
alignment transmission followed by at most `ceil(len / page_size)` loop
transmissions, so at most `ceil(len / page_size) + 1` in all; each loop
transmission carries exactly `min(remaining, page_size) > 0` bytes, `remaining`
being `len` less the bytes sent before it. -/
theorem write_transmission_count_bound (self : M24LC256) (ps : Nat)
    (hps : ps = 16 ∨ ps = 32 ∨ ps = 64) (fuel location : Nat) (mem : Nat → Nat) (len : Nat)
    (hlen : len < 65536) (hfuel : len ≤ fuel) :
    ∃ align loop, self.write ps fuel location mem len = some (align ++ loop)
      ∧ align.length ≤ 1
      ∧ loop.length ≤ (len + ps - 1) / ps
      ∧ (align ++ loop).length ≤ (len + ps - 1) / ps + 1
      ∧ ∀ k (hk : k < loop.length), loop[k].payload.length
            = min (len - (align.map (fun t => t.payload.length)).sum
                - ((loop.take k).map (fun t => t.payload.length)).sum) ps
          ∧ 0 < loop[k].payload.length := by
  have hpos : 0 < ps := by omega
  have hm : location % ps < ps := Nat.mod_lt _ hpos
  rw [write_eq self ps hps fuel location mem len hlen]
  by_cases hmis : location % ps ≠ 0
  · rw [if_pos hmis]
    obtain ⟨rest, h1, h2⟩ := writeLoop_length self ps hps mem fuel
      (len - min len (ps - location % ps)) (min len (ps - location % ps))
      ((location + min len (ps - location % ps)) % 65536) (by omega) (by omega)
    obtain ⟨rest2, g1, g2⟩ := writeLoop_payloads self ps hpos mem fuel
      (len - min len (ps - location % ps)) (min len (ps - location % ps))
      ((location + min len (ps - location % ps)) % 65536) (by omega) (by omega)
    have heq : rest2 = rest := Option.some.inj (g1.symm.trans h1)
    subst heq
    have hc : min (min len (ps - location % ps)) ps = min len (ps - location % ps) := by omega
    have hle : (len - min len (ps - location % ps) + ps - 1) / ps ≤ (len + ps - 1) / ps :=
      Nat.div_le_div_right (by omega)
    refine ⟨[(self.WriteChunk ps mem location (min len (ps - location % ps)) 0).2], rest2,
      (by rw [h1]; rfl), (by simp), (by omega), ?_, fun k hk => ?_⟩
    · simp only [List.length_append, List.length_singleton]
      omega
    simp only [List.map_cons, List.map_nil, List.sum_cons, List.sum_nil, Nat.add_zero,
      WriteChunk_payload self ps mem _ _ _ (show min len (ps - location % ps) < 65536 by omega),
      bytesAt_length, hc]
    exact g2 k hk
  · rw [if_neg hmis]
    obtain ⟨txns, h1, h2⟩ := writeLoop_length self ps hps mem fuel len 0 location hfuel hlen
    obtain ⟨txns2, g1, g2⟩ := writeLoop_payloads self ps hpos mem fuel len 0 location hfuel hlen
    have heq : txns2 = txns := Option.some.inj (g1.symm.trans h1)
    subst heq
    refine ⟨[], txns2, (by rw [h1]; rfl), (by simp), (by omega), ?_, fun k hk => ?_⟩
    · simp only [List.nil_append]
      omega
    simp only [List.map_nil, List.sum_nil, Nat.sub_zero]
    exact g2 k hk

/-- Witness for C13: 1000 bytes at offset 0x0123 with 32-byte chunks. -/
theorem write_transmission_count_bound_witness :
    ∃ align loop, (M24LC256.ctor 0).write 32 1000 0x0123 (fun i => i % 256) 1000
        = some (align ++ loop)
      ∧ align.length ≤ 1
      ∧ loop.length ≤ (1000 + 32 - 1) / 32
      ∧ (align ++ loop).length ≤ (1000 + 32 - 1) / 32 + 1
      ∧ ∀ k (hk : k < loop.length), loop[k].payload.length
            = min (1000 - (align.map (fun t => t.payload.length)).sum
                - ((loop.take k).map (fun t => t.payload.length)).sum) 32
          ∧ 0 < loop[k].payload.length :=
  write_transmission_count_bound (M24LC256.ctor 0) 32 (by decide) 1000 0x0123
    (fun i => i % 256) 1000 (by decide) (by decide)

/-! ## Device address, chunk size selection, address bytes -/

/-- C14, as stated, fails: for the 8-bit value `0xFF` the constructor stores
`0xFF`, which is not a 7-bit value and is not `0x50 | (0xFF & 7) = 0x57`. -/
theorem device_address_counterexample :
    (M24LC256.ctor 0xFF).i2c_address = 0xFF
      ∧ ¬ (M24LC256.ctor 0xFF).i2c_address < 128
      ∧ (M24LC256.ctor 0xFF).i2c_address ≠ 0x50 ||| (0xFF &&& 7) := by
  decide

/-- C14, amended: the constructor does not mask its argument; for every 8-bit
`a` the device address is `a | 0x50`.  When `a` is a 3-bit selector
(`a ≤ 7`, what the documentation of the parameter asks for) this is
`0x50 | (a & 7)`, a 7-bit value in `0x50..0x57`. -/
theorem device_address (a : Nat) (ha : a < 256) :
    (M24LC256.ctor a).i2c_address = a ||| 0x50
      ∧ (a < 8 → (M24LC256.ctor a).i2c_address = 0x50 ||| (a &&& 7)
          ∧ 0x50 ≤ (M24LC256.ctor a).i2c_address
          ∧ (M24LC256.ctor a).i2c_address ≤ 0x57
          ∧ (M24LC256.ctor a).i2c_address < 128) := by
  have hlt : a ||| 0x50 < 2 ^ 8 := Nat.or_lt_two_pow ha (by decide)
  have h1 : (M24LC256.ctor a).i2c_address = a ||| 0x50 := by
    simp only [M24LC256.ctor, I2C_M24LC256]
    exact Nat.mod_eq_of_lt hlt
  refine ⟨h1, fun h8 => ?_⟩
  rw [h1]
  interval_cases a <;> decide

/-- Witness for C14 (amended): selector 5. -/
theorem device_address_witness :
    (M24LC256.ctor 5).i2c_address = 5 ||| 0x50
      ∧ (M24LC256.ctor 5).i2c_address = 0x50 ||| (5 &&& 7)
      ∧ 0x50 ≤ (M24LC256.ctor 5).i2c_address
      ∧ (M24LC256.ctor 5).i2c_address ≤ 0x57
      ∧ (M24LC256.ctor 5).i2c_address < 128 :=
  ⟨(device_address 5 (by decide)).1, (device_address 5 (by decide)).2 (by decide)⟩

/-- C15, as stated, fails: with both buffer lengths 10 the selected
`page_size` is 16, and `16 + 2` exceeds `min 10 10`. -/
theorem page_size_counterexample :
    page_size 10 10 = 16 ∧ ¬ page_size 10 10 + 2 ≤ min 10 10 := by
  decide

/-- C15, amended: for every pair of buffer lengths the selected `page_size` is
a power of two, at most 64, and divides 64; when both buffer lengths are at
least 18 it also leaves room for the two address bytes,
`page_size + 2 ≤ min BUFFER_LENGTH TWI_BUFFER_LENGTH`. -/
theorem page_size_configuration (BUFFER_LENGTH TWI_BUFFER_LENGTH : Nat) :
    (∃ k, page_size BUFFER_LENGTH TWI_BUFFER_LENGTH = 2 ^ k)
      ∧ page_size BUFFER_LENGTH TWI_BUFFER_LENGTH ≤ 64
      ∧ 64 % page_size BUFFER_LENGTH TWI_BUFFER_LENGTH = 0
      ∧ (18 ≤ BUFFER_LENGTH → 18 ≤ TWI_BUFFER_LENGTH →
          page_size BUFFER_LENGTH TWI_BUFFER_LENGTH + 2
            ≤ min BUFFER_LENGTH TWI_BUFFER_LENGTH) := by
  unfold page_size
  by_cases h1 : BUFFER_LENGTH < 34 ∨ TWI_BUFFER_LENGTH < 34
  · rw [if_pos h1]
    exact ⟨⟨4, by norm_num⟩, by norm_num, by norm_num, fun hb ht => by omega⟩
  · rw [if_neg h1]
    by_cases h2 : BUFFER_LENGTH < 66 ∨ TWI_BUFFER_LENGTH < 66
    · rw [if_pos h2]
      exact ⟨⟨5, by norm_num⟩, by norm_num, by norm_num, fun hb ht => by omega⟩
    · rw [if_neg h2]
      exact ⟨⟨6, by norm_num⟩, by norm_num, by norm_num, fun hb ht => by omega⟩

/-- Witness for C15 (amended): the default Wire buffers of 32 bytes. -/
theorem page_size_configuration_witness :
    (∃ k, page_size 32 32 = 2 ^ k) ∧ page_size 32 32 ≤ 64 ∧ 64 % page_size 32 32 = 0
      ∧ page_size 32 32 + 2 ≤ min 32 32 :=
  ⟨(page_size_configuration 32 32).1, (page_size_configuration 32 32).2.1,
    (page_size_configuration 32 32).2.2.1,
    (page_size_configuration 32 32).2.2.2 (by decide) (by decide)⟩

/-- C17: offset prefix encoding.  For every 16-bit offset `loc`, the
transmission of `WriteChunk` and the request of `ReadChunk` carry the two
address bytes `loc >> 8` and `loc & 0xff`, in this order, each below 256, with
`256 * first + second = loc`; two 16-bit offsets with the same two bytes are
equal. -/
theorem offset_prefix_encoding {σ : Type} (self : M24LC256) (ps : Nat) (T : Transport σ)
    (s : σ) (mem : Nat → Nat) (loc length data : Nat) (hloc : loc < 65536) :
    ((self.WriteChunk ps mem loc length data).2.hi = loc >>> 8
        ∧ (self.WriteChunk ps mem loc length data).2.lo = loc &&& 0xff
        ∧ (self.ReadChunk T s mem loc length data).txn.req.hi = loc >>> 8
        ∧ (self.ReadChunk T s mem loc length data).txn.req.lo = loc &&& 0xff)
      ∧ loc >>> 8 < 256 ∧ loc &&& 0xff < 256
      ∧ 256 * (loc >>> 8) + (loc &&& 0xff) = loc
      ∧ ∀ loc2, loc2 < 65536 →
          (self.WriteChunk ps mem loc2 length data).2.hi
            = (self.WriteChunk ps mem loc length data).2.hi →
          (self.WriteChunk ps mem loc2 length data).2.lo
            = (self.WriteChunk ps mem loc length data).2.lo →
          loc2 = loc := by
  have hhi : loc >>> 8 < 256 := by
    rw [Nat.shiftRight_eq_div_pow]
    omega
  have hlo : loc &&& 0xff < 256 := by
    rw [and_0xff_eq_mod]
    omega
  have e1 : (loc >>> 8) % 256 = loc >>> 8 := Nat.mod_eq_of_lt hhi
  have e2 : (loc &&& 0xff) % 256 = loc &&& 0xff := Nat.mod_eq_of_lt hlo
  have henc := addr_bytes loc hloc
  rw [e1, e2] at henc
  refine ⟨⟨?_, ?_, ?_, ?_⟩, hhi, hlo, henc, fun loc2 h2 hh hl => ?_⟩
  · simp only [M24LC256.WriteChunk, e1]
  · simp only [M24LC256.WriteChunk, e2]
  · simp only [M24LC256.ReadChunk, e1]
  · simp only [M24LC256.ReadChunk, e2]
  · have henc2 := addr_bytes loc2 h2
    simp only [M24LC256.WriteChunk] at hh hl
    rw [hh, hl, e1, e2, henc] at henc2
    exact henc2.symm

/-- Witness for C17: offset 0x7ABC. -/
theorem offset_prefix_encoding_witness :
    (((M24LC256.ctor 0).WriteChunk 16 (fun i => i) 0x7ABC 16 0).2.hi = 0x7ABC >>> 8
        ∧ ((M24LC256.ctor 0).WriteChunk 16 (fun i => i) 0x7ABC 16 0).2.lo = 0x7ABC &&& 0xff
        ∧ ((M24LC256.ctor 0).ReadChunk (fun (s : Unit) _ => ([], s)) () (fun i => i) 0x7ABC 16
            0).txn.req.hi = 0x7ABC >>> 8
        ∧ ((M24LC256.ctor 0).ReadChunk (fun (s : Unit) _ => ([], s)) () (fun i => i) 0x7ABC 16
            0).txn.req.lo = 0x7ABC &&& 0xff)
      ∧ 0x7ABC >>> 8 < 256 ∧ 0x7ABC &&& 0xff < 256
      ∧ 256 * (0x7ABC >>> 8) + (0x7ABC &&& 0xff) = 0x7ABC
      ∧ ∀ loc2, loc2 < 65536 →
          ((M24LC256.ctor 0).WriteChunk 16 (fun i => i) loc2 16 0).2.hi
            = ((M24LC256.ctor 0).WriteChunk 16 (fun i => i) 0x7ABC 16 0).2.hi →
          ((M24LC256.ctor 0).WriteChunk 16 (fun i => i) loc2 16 0).2.lo
            = ((M24LC256.ctor 0).WriteChunk 16 (fun i => i) 0x7ABC 16 0).2.lo →
          loc2 = 0x7ABC :=
  offset_prefix_encoding (M24LC256.ctor 0) 16 (fun (s : Unit) _ => ([], s)) () (fun i => i)
    0x7ABC 16 0 (by decide)

/-- C19: at the failing inputs the chunk primitives do not look at 16-byte
boundaries.  `WriteChunk(5, 16, data)` with `page_size` 16 transfers 16 bytes
from offset 5 (past the boundary at 16); `WriteChunk(0, 64, data)` with
`page_size` 64 transfers 64 bytes; `ReadChunk(5, 16, data)` requests 16 bytes
from offset 5. -/
theorem chunk_primitives_ignore_16_byte_boundaries :
    ((M24LC256.ctor 0).WriteChunk 16 (fun i => i) 5 16 0).1 = 16
      ∧ ((M24LC256.ctor 0).WriteChunk 16 (fun i => i) 5 16 0).2.payload.length = 16
      ∧ ((M24LC256.ctor 0).WriteChunk 64 (fun i => i) 0 64 0).2.payload.length = 64
      ∧ ((M24LC256.ctor 0).ReadChunk (fun (s : Unit) req => (List.replicate req.quantity 0xAB, s))
          () (fun _ => 0) 5 16 0).txn.req.quantity = 16
      ∧ ((M24LC256.ctor 0).ReadChunk (fun (s : Unit) req => (List.replicate req.quantity 0xAB, s))
          () (fun _ => 0) 5 16 0).bytes_received = 16 := by
  decide

/-- In the write loop the first transmission carries `min(remaining, page_size)`
bytes and every transmission but the last carries `page_size` bytes. -/
theorem writeLoop_shape (self : M24LC256) (ps : Nat) (hps : 0 < ps) (mem : Nat → Nat)
    (fuel remaining next_in next_out : Nat) (hf : remaining ≤ fuel) (hr : remaining < 65536) :
    ∃ txns, self.writeLoop ps mem fuel remaining next_in next_out = some txns
      ∧ (∀ t, txns.head? = some t → t.payload.length = min remaining ps)
      ∧ ∀ k (hk : k < txns.length), k + 1 < txns.length → txns[k].payload.length = ps := by
  obtain ⟨txns, h1, _, h3⟩ := writeLoop_ind self ps mem hps
    (fun remaining _ _ txns =>
      (∀ t, txns.head? = some t → t.payload.length = min remaining ps)
      ∧ ∀ k (hk : k < txns.length), k + 1 < txns.length → txns[k].payload.length = ps)
    (fun _ _ => ⟨fun t ht => by simp at ht, fun k hk => by simp at hk⟩)
    (fun remaining next_in next_out rest hpos hlt hlast ih => by
      have hpay := WriteChunk_payload self ps mem next_out remaining next_in hlt
      refine ⟨fun t ht => ?_, fun k hk hk1 => ?_⟩
      · simp only [List.head?_cons, Option.some.injEq] at ht
        subst ht
        rw [hpay, bytesAt_length]
      · cases k with
        | zero =>
          have hne : ¬ remaining ≤ ps := by
            intro hle
            rw [hlast hle] at hk1
            simp at hk1
          simp only [List.getElem_cons_zero, hpay, bytesAt_length]
          omega
        | succ k =>
          have hk2 : k < rest.length := by simpa using hk
          have hk3 : k + 1 < rest.length := by simpa using hk1
          simp only [List.getElem_cons_succ]
          exact ih.2 k hk2 hk3)
    fuel remaining next_in next_out hf hr
  exact ⟨txns, h1, h3⟩

/-- C16: shape of a write's transmission sequence.  (a) At a location that is
a multiple of `page_size` there is no alignment transmission: the
`ceil(len / page_size)` transmissions all start at multiples of `page_size`,
none is empty, and the first carries `min(len, page_size)` bytes.  (b) At a
location misaligned by `m ≠ 0` the first transmission starts at `location`
and carries `min(len, page_size - m)` bytes.  (c) Every transmission after the
first starts at a multiple of `page_size`, and every transmission other than
the first and the last carries exactly `page_size` bytes. -/
theorem write_transmission_shape (self : M24LC256) (ps : Nat)
    (hps : ps = 16 ∨ ps = 32 ∨ ps = 64) (fuel location : Nat) (mem : Nat → Nat) (len : Nat)
    (hloc : location < 65536) (hlen : len < 65536) (hfuel : len ≤ fuel) :
    ∃ txns, self.write ps fuel location mem len = some txns
      ∧ (location % ps = 0 →
          txns.length = (len + ps - 1) / ps
          ∧ (∀ t ∈ txns, t.addr % ps = 0 ∧ 1 ≤ t.payload.length)
          ∧ ∀ t, txns.head? = some t → t.payload.length = min len ps)
      ∧ (location % ps ≠ 0 →
          ∃ first rest, txns = first :: rest ∧ first.addr = location
            ∧ first.payload.length = min len (ps - location % ps))
      ∧ (∀ k (hk : k < txns.length), 0 < k → txns[k].addr % ps = 0)
      ∧ ∀ k (hk : k < txns.length), 0 < k → k + 1 < txns.length →
          txns[k].payload.length = ps := by
  have hpos : 0 < ps := by omega
  have hm : location % ps < ps := Nat.mod_lt _ hpos
  rw [write_eq self ps hps fuel location mem len hlen]
  by_cases hmis : location % ps ≠ 0
  · rw [if_pos hmis]
    obtain ⟨rest, h1, _, h3⟩ := writeLoop_chunks self ps hps mem fuel
      (len - min len (ps - location % ps)) (min len (ps - location % ps))
      ((location + min len (ps - location % ps)) % 65536) (by omega) (by omega)
      (Nat.mod_lt _ (by omega))
      (by rcases hps with rfl | rfl | rfl <;> omega)
    obtain ⟨rest2, g1, _, g3⟩ := writeLoop_shape self ps hpos mem fuel
      (len - min len (ps - location % ps)) (min len (ps - location % ps))
      ((location + min len (ps - location % ps)) % 65536) (by omega) (by omega)
    have heq : rest2 = rest := Option.some.inj (g1.symm.trans h1)
    subst heq
    have hc : min (min len (ps - location % ps)) ps = min len (ps - location % ps) := by omega
    refine ⟨_, (by rw [h1]; rfl), fun hal => absurd hal hmis, fun _ => ⟨_, rest2, rfl, ?_, ?_⟩,
      fun k hk hk0 => ?_, fun k hk hk0 hk1 => ?_⟩
    · exact WriteChunk_addr self ps mem _ _ _ hloc
    · rw [WriteChunk_payload self ps mem _ _ _
        (show min len (ps - location % ps) < 65536 by omega), bytesAt_length, hc]
    · cases k with
      | zero => omega
      | succ k =>
        have hk2 : k < rest2.length := by simpa using hk
        simp only [List.getElem_cons_succ]
        exact (h3 _ (List.getElem_mem hk2)).2.1
    · cases k with
      | zero => omega
      | succ k =>
        have hk2 : k < rest2.length := by simpa using hk
        have hk3 : k + 1 < rest2.length := by simpa using hk1
        simp only [List.getElem_cons_succ]
        exact g3 k hk2 hk3
  · rw [if_neg hmis]
    have hal : location % ps = 0 := by omega
    obtain ⟨txns, h1, _, h3⟩ := writeLoop_chunks self ps hps mem fuel len 0 location hfuel hlen
      hloc (fun _ => hal)
    obtain ⟨txns2, g1, g2, g3⟩ := writeLoop_shape self ps hpos mem fuel len 0 location hfuel hlen
    obtain ⟨txns3, l1, l2⟩ := writeLoop_length self ps hps mem fuel len 0 location hfuel hlen
    have heq : txns2 = txns := Option.some.inj (g1.symm.trans h1)
    have heq3 : txns3 = txns := Option.some.inj (l1.symm.trans h1)
    subst heq
    subst heq3
    refine ⟨txns3, h1, fun _ => ⟨l2, fun t ht => ⟨(h3 t ht).2.1, (h3 t ht).2.2.1⟩, g2⟩,
      fun h => absurd hal h, fun k hk _ => (h3 _ (List.getElem_mem hk)).2.1,
      fun k hk _ hk1 => g3 k hk hk1⟩

/-- Witness for C16: 150 bytes at offset 0x0FF9 with 64-byte chunks. -/
theorem write_transmission_shape_witness :
    ∃ txns, (M24LC256.ctor 0).write 64 150 0x0FF9 (fun i => i % 256) 150 = some txns
      ∧ (0x0FF9 % 64 = 0 →
          txns.length = (150 + 64 - 1) / 64
          ∧ (∀ t ∈ txns, t.addr % 64 = 0 ∧ 1 ≤ t.payload.length)
          ∧ ∀ t, txns.head? = some t → t.payload.length = min 150 64)
      ∧ (0x0FF9 % 64 ≠ 0 →
          ∃ first rest, txns = first :: rest ∧ first.addr = 0x0FF9
            ∧ first.payload.length = min 150 (64 - 0x0FF9 % 64))
      ∧ (∀ k (hk : k < txns.length), 0 < k → txns[k].addr % 64 = 0)
      ∧ ∀ k (hk : k < txns.length), 0 < k → k + 1 < txns.length →
          txns[k].payload.length = 64 :=
  write_transmission_shape (M24LC256.ctor 0) 64 (by decide) 150 0x0FF9 (fun i => i % 256) 150
    (by decide) (by decide) (by decide)

/-! ## What `read` leaves in the destination buffer -/

theorem map_getD_range_eq_take (l : List Nat) (k : Nat) (hk : k ≤ l.length) :
    (List.range k).map (fun j => l.getD j 0) = l.take k := by
  apply List.ext_getElem
  · simp [hk]
  · intro n h1 h2
    have hn : n < k := by simpa using h1
    have hn2 : n < l.length := by omega
    simp [List.getD_eq_getElem?_getD, List.getElem?_eq_getElem hn2]

/-- Prepending a chunk read that stored `k` bytes at `next_memory` to later
chunk reads that only touched the `S` positions after them. -/
theorem frame_cons (mem cmem rmem : Nat → Nat) (avail flat : List Nat) (next_memory k S : Nat)
    (hk : k ≤ avail.length)
    (hc : ∀ i, cmem i = if next_memory ≤ i ∧ i < next_memory + k
      then avail.getD (i - next_memory) 0 else mem i)
    (h1 : ∀ i, i < next_memory + k → rmem i = cmem i)
    (h2 : ∀ i, next_memory + k + S ≤ i → rmem i = cmem i)
    (h3 : bytesAt rmem (next_memory + k) S = flat) :
    (∀ i, i < next_memory → rmem i = mem i)
      ∧ (∀ i, next_memory + (k + S) ≤ i → rmem i = mem i)
      ∧ bytesAt rmem next_memory (k + S) = avail.take k ++ flat := by
  refine ⟨fun i hi => ?_, fun i hi => ?_, ?_⟩
  · rw [h1 i (by omega), hc i, if_neg (by omega)]
  · rw [h2 i (by omega), hc i, if_neg (by omega)]
  · rw [bytesAt_add, h3, ← map_getD_range_eq_take avail k hk]
    congr 1
    apply List.map_congr_left
    intro j hj
    have hjk : j < k := List.mem_range.mp hj
    rw [h1 _ (by omega), hc, if_pos (by omega)]
    congr 1
    omega

/-- The read loop, for any transport: the bytes its chunk reads took stand in
the destination from `next_memory` on, in the order delivered, and every other
position keeps its value. -/
theorem readLoop_frame {σ : Type} (self : M24LC256) (T : Transport σ) (fuel : Nat) (s : σ)
    (mem : Nat → Nat) (remaining next_memory next_chip bytes_received : Nat)
    (hf : remaining ≤ fuel) (hr : remaining < 65536) :
    ∃ r, self.readLoop T fuel s mem remaining next_memory next_chip bytes_received = some r
      ∧ (∀ i, i < next_memory → r.mem i = mem i)
      ∧ (∀ i, next_memory + (r.log.map (fun t => t.received)).sum ≤ i → r.mem i = mem i)
      ∧ bytesAt r.mem next_memory (r.log.map (fun t => t.received)).sum
          = (r.log.map (fun t => t.available.take t.received)).flatten := by
  exact readLoop_ind self T
    (fun _ mem _ next_memory _ _ r =>
      (∀ i, i < next_memory → r.mem i = mem i)
      ∧ (∀ i, next_memory + (r.log.map (fun t => t.received)).sum ≤ i → r.mem i = mem i)
      ∧ bytesAt r.mem next_memory (r.log.map (fun t => t.received)).sum
          = (r.log.map (fun t => t.available.take t.received)).flatten)
    (fun _ _ _ _ _ => ⟨fun _ _ => rfl, fun _ _ => rfl, by simp [bytesAt]⟩)
    (fun s mem remaining next_memory next_chip bytes_received hpos hlt hz => by
      obtain ⟨_, _, c3, c4, _, c6⟩ :=
        ReadChunk_spec self T s mem next_chip remaining next_memory hlt
      have := frame_cons mem (self.ReadChunk T s mem next_chip remaining next_memory).mem
        (self.ReadChunk T s mem next_chip remaining next_memory).mem
        (self.ReadChunk T s mem next_chip remaining next_memory).txn.available []
        next_memory (self.ReadChunk T s mem next_chip remaining next_memory).bytes_received 0
        (by omega) c6 (fun _ _ => rfl) (fun _ _ => rfl) (by simp [bytesAt])
      simpa [c3] using this)
    (fun s mem remaining next_memory next_chip bytes_received r hpos hlt hk ih => by
      obtain ⟨_, _, c3, c4, _, c6⟩ :=
        ReadChunk_spec self T s mem next_chip remaining next_memory hlt
      obtain ⟨i1, i2, i3⟩ := ih
      have := frame_cons mem (self.ReadChunk T s mem next_chip remaining next_memory).mem
        r.mem (self.ReadChunk T s mem next_chip remaining next_memory).txn.available
        ((r.log.map (fun t => t.available.take t.received)).flatten)
        next_memory (self.ReadChunk T s mem next_chip remaining next_memory).bytes_received
        ((r.log.map (fun t => t.received)).sum) (by omega) c6 i1 i2 i3
      simpa [ReadResult.push, c3] using this)
    fuel s mem remaining next_memory next_chip bytes_received hf hr

/-- C18: `read` touches only the prefix of the destination buffer it reports.
For every transport behaviour, with `r` the returned count, `buf[0..r)` holds
the bytes the chunk reads took from the transport, in delivery order, and
every position from `r` on holds its initial value. -/
theorem read_touches_only_reported_prefix {σ : Type} (self : M24LC256) (T : Transport σ)
    (fuel : Nat) (s : σ) (location : Nat) (mem : Nat → Nat) (len : Nat)
    (hlen : len < 65536) (hfuel : len ≤ fuel) :
    ∃ r, self.read T fuel s location mem len = some r
      ∧ bytesAt r.mem 0 r.bytes_received
          = (r.log.map (fun t => t.available.take t.received)).flatten
      ∧ ∀ i, r.bytes_received ≤ i → r.mem i = mem i := by
  obtain ⟨r, h1, h2, _⟩ := read_log self T fuel s location mem len hlen hfuel
  refine ⟨r, h1, ?_⟩
  rw [h2]
  rw [read_eq self T fuel s location mem len hlen] at h1
  by_cases hmis : location % 16 ≠ 0
  · rw [if_pos hmis] at h1
    obtain ⟨_, _, c3, c4, c5, c6⟩ :=
      ReadChunk_spec self T s mem location (min len (16 - location % 16)) 0 (by omega)
    obtain ⟨r2, g1, g2, g3, g4⟩ := readLoop_frame self T fuel
      (self.ReadChunk T s mem location (min len (16 - location % 16)) 0).state
      (self.ReadChunk T s mem location (min len (16 - location % 16)) 0).mem
      (len - (self.ReadChunk T s mem location (min len (16 - location % 16)) 0).bytes_received)
      (self.ReadChunk T s mem location (min len (16 - location % 16)) 0).bytes_received
      ((location
        + (self.ReadChunk T s mem location (min len (16 - location % 16)) 0).bytes_received)
          % 65536)
      (self.ReadChunk T s mem location (min len (16 - location % 16)) 0).bytes_received
      (by omega) (by omega)
    rw [g1] at h1
    have hr : r = r2.push
        (self.ReadChunk T s mem location (min len (16 - location % 16)) 0).txn :=
      (Option.some.inj h1).symm
    subst hr
    have := frame_cons mem (self.ReadChunk T s mem location (min len (16 - location % 16)) 0).mem
      r2.mem (self.ReadChunk T s mem location (min len (16 - location % 16)) 0).txn.available
      ((r2.log.map (fun t => t.available.take t.received)).flatten) 0
      (self.ReadChunk T s mem location (min len (16 - location % 16)) 0).bytes_received
      ((r2.log.map (fun t => t.received)).sum) (by omega) c6
      (by simpa using g2) (by simpa using g3) (by simpa using g4)
    obtain ⟨_, f2, f3⟩ := this
    refine ⟨?_, fun i hi => ?_⟩
    · simpa [ReadResult.push, c3] using f3
    · apply f2
      simpa [ReadResult.push, c3] using hi
  · rw [if_neg hmis] at h1
    obtain ⟨r2, g1, _, g3, g4⟩ := readLoop_frame self T fuel s mem len 0 location 0 hfuel hlen
    rw [g1] at h1
    have hr : r = r2 := (Option.some.inj h1).symm
    subst hr
    exact ⟨g4, fun i hi => g3 i (by omega)⟩

/-- Witness for C18: a transport that makes three bytes available for each
request, asked for 40 bytes at offset 5. -/
theorem read_touches_only_reported_prefix_witness :
    ∃ r, (M24LC256.ctor 0).read (fun (s : Unit) _ => ([7, 8, 9], s)) 40 () 5 (fun i => i) 40
        = some r
      ∧ bytesAt r.mem 0 r.bytes_received
          = (r.log.map (fun t => t.available.take t.received)).flatten
      ∧ ∀ i, r.bytes_received ≤ i → r.mem i = (fun i => i) i :=
  read_touches_only_reported_prefix (M24LC256.ctor 0) (fun (s : Unit) _ => ([7, 8, 9], s)) 40 ()
    5 (fun i => i) 40 (by decide) (by decide)
